import Mathlib

/-!
# lmlinter: table-driven test extraction over Go syntax trees

A shallow embedding of `cmd/main.go`.  The program parses a Go test file with
`go/parser` (mode `parser.AllErrors`, so comments are not retained), walks the
syntax tree with `ast.Inspect`, and collects table-driven test cases.

Layout:
* the `go/ast` data model: a typed syntax tree with the child fields of every
  node type; positions, comment groups (nil in this parser mode) and resolver
  fields (`Obj`, `Scope`) are left out;
* `ast.Walk` child order (`exprTree` ... `fileTree`) and `ast.Inspect`;
* the functions of `main.go`: `findTestCases`, `findFunctionImplementation`,
  `findTestedFunctionName`, the enrichment pass of `main`, each from the parsed
  file on (reading and parsing are outside the embedding), the derivation of
  the implementation file path, and `createPrompt`;
* the vocabulary of the statements and worked inputs;
* theorems.

A run-time panic of the Go program (a nil `fn.Body` handed to `ast.Inspect`,
the index `Rhs[0]` on an empty slice) is modelled by `none`.
`printer.Fprint` is an external collaborator and is taken as a parameter `P`.
Go strings are modelled by Lean strings, that is, valid UTF-8 text; every
pattern the program searches for is ASCII, so searching by character agrees
with Go's search by byte, and lengths differ by the same amounts.
-/

namespace Lmlinter

/-! ## go/token -/

/-- The token kinds of `go/token` that occur as fields of syntax-tree nodes. -/
inductive Token where
  | ILLEGAL | IDENT | INT | FLOAT | IMAG | CHAR | STRING
  | ADD | SUB | MUL | QUO | REM | AND | OR | XOR | SHL | SHR | AND_NOT
  | ADD_ASSIGN | SUB_ASSIGN | MUL_ASSIGN | QUO_ASSIGN | REM_ASSIGN
  | AND_ASSIGN | OR_ASSIGN | XOR_ASSIGN | SHL_ASSIGN | SHR_ASSIGN | AND_NOT_ASSIGN
  | LAND | LOR | ARROW | INC | DEC | EQL | LSS | GTR | ASSIGN | NOT
  | NEQ | LEQ | GEQ | DEFINE | TILDE
  | BREAK | CONTINUE | GOTO | FALLTHROUGH | CONST | TYPE | VAR | IMPORT | RANGE
deriving DecidableEq, Repr

/-! ## go/ast -/

/-- Go `ast.Ident`. -/
structure Ident where
  Name : String
deriving DecidableEq, Repr

/-- Go `ast.BasicLit`: `Value` is the literal text as written in the source,
delimiters included. -/
structure BasicLit where
  Kind : Token
  Value : String
deriving DecidableEq, Repr

/-- Go `ast.ChanDir`. -/
inductive ChanDir where
  | SEND | RECV | BOTH
deriving DecidableEq, Repr

mutual
/-- Go `ast.Expr` (expressions and type expressions). -/
inductive Expr where
  | badExpr
  | ident (id : Ident)
  | ellipsis (elt : Option Expr)
  | basicLit (lit : BasicLit)
  | funcLit (typ : FuncType) (body : BlockStmt)
  | compositeLit (typ : Option Expr) (elts : List Expr)
  | parenExpr (x : Expr)
  | selectorExpr (x : Expr) (sel : Ident)
  | indexExpr (x index : Expr)
  | indexListExpr (x : Expr) (indices : List Expr)
  | sliceExpr (x : Expr) (low high max : Option Expr)
  | typeAssertExpr (x : Expr) (typ : Option Expr)
  | callExpr (call : CallExpr)
  | starExpr (x : Expr)
  | unaryExpr (op : Token) (x : Expr)
  | binaryExpr (x : Expr) (op : Token) (y : Expr)
  | keyValueExpr (key value : Expr)
  | arrayType (len : Option Expr) (elt : Expr)
  | structType (fields : FieldList)
  | funcType (ft : FuncType)
  | interfaceType (methods : FieldList)
  | mapType (key value : Expr)
  | chanType (dir : ChanDir) (value : Expr)
/-- Go `ast.CallExpr`. -/
inductive CallExpr where
  | mk (fn : Expr) (args : List Expr)
/-- Go `ast.FuncType`. -/
inductive FuncType where
  | mk (typeParams params results : Option FieldList)
/-- Go `ast.FieldList`. -/
inductive FieldList where
  | mk (list : List Field)
/-- Go `ast.Field`. -/
inductive Field where
  | mk (names : List Ident) (typ : Option Expr) (tag : Option BasicLit)
/-- Go `ast.Stmt`. -/
inductive Stmt where
  | badStmt
  | declStmt (decl : GenDecl)
  | emptyStmt
  | labeledStmt (label : Ident) (stmt : Stmt)
  | exprStmt (x : Expr)
  | sendStmt (chan value : Expr)
  | incDecStmt (x : Expr) (tok : Token)
  | assignStmt (lhs : List Expr) (tok : Token) (rhs : List Expr)
  | goStmt (call : CallExpr)
  | deferStmt (call : CallExpr)
  | returnStmt (results : List Expr)
  | branchStmt (tok : Token) (label : Option Ident)
  | blockStmt (block : BlockStmt)
  | ifStmt (init : Option Stmt) (cond : Expr) (body : BlockStmt) (els : Option Stmt)
  | caseClause (list : List Expr) (body : List Stmt)
  | switchStmt (init : Option Stmt) (tag : Option Expr) (body : BlockStmt)
  | typeSwitchStmt (init : Option Stmt) (assign : Stmt) (body : BlockStmt)
  | commClause (comm : Option Stmt) (body : List Stmt)
  | selectStmt (body : BlockStmt)
  | forStmt (init : Option Stmt) (cond : Option Expr) (post : Option Stmt) (body : BlockStmt)
  | rangeStmt (key value : Option Expr) (tok : Token) (x : Expr) (body : BlockStmt)
/-- Go `ast.BlockStmt`. -/
inductive BlockStmt where
  | mk (list : List Stmt)
/-- Go `ast.Spec`. -/
inductive Spec where
  | importSpec (name : Option Ident) (path : BasicLit)
  | valueSpec (names : List Ident) (typ : Option Expr) (values : List Expr)
  | typeSpec (name : Ident) (typeParams : Option FieldList) (typ : Expr)
/-- Go `ast.GenDecl`.  A `DeclStmt` holds a `*GenDecl` (const, type or var),
so function declarations occur only in `File.Decls`. -/
inductive GenDecl where
  | mk (tok : Token) (specs : List Spec)
end

/-- Go `ast.FuncDecl`.  `Body` is `none` for a declaration without a body
(a nil `*BlockStmt`). -/
structure FuncDecl where
  Recv : Option FieldList
  Name : Ident
  Typ : FuncType
  Body : Option BlockStmt

/-- Go `ast.Decl`. -/
inductive Decl where
  | badDecl
  | genDecl (d : GenDecl)
  | funcDecl (d : FuncDecl)

/-- Go `ast.File`. -/
structure File where
  Name : Ident
  Decls : List Decl

/-- Go `ast.Node`: what the function handed to `ast.Inspect` receives.  The
pointer types `*Ident`, `*BasicLit`, `*CallExpr`, `*FuncType` are expressions,
`*BlockStmt` is a statement, `*GenDecl` and `*FuncDecl` are declarations. -/
inductive Node where
  | expr (e : Expr)
  | stmt (s : Stmt)
  | field (f : Field)
  | fieldList (l : FieldList)
  | spec (s : Spec)
  | decl (d : Decl)
  | file (f : File)

/-- The tree of nodes in the order `ast.Walk` visits them: a node and the
walks of its non-nil children. -/
inductive Tree where
  | node (n : Node) (kids : List Tree)

/-- Walk of an identifier: no children. -/
def identTree (id : Ident) : Tree := .node (.expr (.ident id)) []

/-- Walk of a basic literal: no children. -/
def basicLitTree (lit : BasicLit) : Tree := .node (.expr (.basicLit lit)) []

/-- Walk of an optional basic literal (`Field.Tag`). -/
def optBasicLitTree : Option BasicLit → List Tree
  | none => []
  | some lit => [basicLitTree lit]

/-- Walk of an optional identifier (`if n.Label != nil`). -/
def optIdentTree : Option Ident → List Tree
  | none => []
  | some id => [identTree id]

mutual
/-- The `ast.Walk` cases for expressions. -/
def exprTree : Expr → Tree
  | .badExpr => .node (.expr .badExpr) []
  | .ident id => .node (.expr (.ident id)) []
  | .ellipsis elt => .node (.expr (.ellipsis elt)) (optExprTree elt)
  | .basicLit lit => .node (.expr (.basicLit lit)) []
  | .funcLit typ body => .node (.expr (.funcLit typ body)) [funcTypeTree typ, blockTree body]
  | .compositeLit typ elts =>
      .node (.expr (.compositeLit typ elts)) (optExprTree typ ++ exprsTree elts)
  | .parenExpr x => .node (.expr (.parenExpr x)) [exprTree x]
  | .selectorExpr x sel => .node (.expr (.selectorExpr x sel)) [exprTree x, identTree sel]
  | .indexExpr x index => .node (.expr (.indexExpr x index)) [exprTree x, exprTree index]
  | .indexListExpr x indices =>
      .node (.expr (.indexListExpr x indices)) (exprTree x :: exprsTree indices)
  | .sliceExpr x low high max =>
      .node (.expr (.sliceExpr x low high max))
        (exprTree x :: (optExprTree low ++ optExprTree high ++ optExprTree max))
  | .typeAssertExpr x typ => .node (.expr (.typeAssertExpr x typ)) (exprTree x :: optExprTree typ)
  | .callExpr call => callTree call
  | .starExpr x => .node (.expr (.starExpr x)) [exprTree x]
  | .unaryExpr op x => .node (.expr (.unaryExpr op x)) [exprTree x]
  | .binaryExpr x op y => .node (.expr (.binaryExpr x op y)) [exprTree x, exprTree y]
  | .keyValueExpr key value => .node (.expr (.keyValueExpr key value)) [exprTree key, exprTree value]
  | .arrayType len elt => .node (.expr (.arrayType len elt)) (optExprTree len ++ [exprTree elt])
  | .structType fields => .node (.expr (.structType fields)) [fieldListTree fields]
  | .funcType ft => funcTypeTree ft
  | .interfaceType methods => .node (.expr (.interfaceType methods)) [fieldListTree methods]
  | .mapType key value => .node (.expr (.mapType key value)) [exprTree key, exprTree value]
  | .chanType dir value => .node (.expr (.chanType dir value)) [exprTree value]
/-- Walk of an optional expression (`if n.X != nil`). -/
def optExprTree : Option Expr → List Tree
  | none => []
  | some e => [exprTree e]
/-- Go `walkExprList`. -/
def exprsTree : List Expr → List Tree
  | [] => []
  | e :: es => exprTree e :: exprsTree es
/-- The `ast.Walk` case `*CallExpr`. -/
def callTree : CallExpr → Tree
  | .mk fn args => .node (.expr (.callExpr (.mk fn args))) (exprTree fn :: exprsTree args)
/-- The `ast.Walk` case `*FuncType`. -/
def funcTypeTree : FuncType → Tree
  | .mk typeParams params results =>
      .node (.expr (.funcType (.mk typeParams params results)))
        (optFieldListTree typeParams ++ optFieldListTree params ++ optFieldListTree results)
/-- The `ast.Walk` case `*FieldList`. -/
def fieldListTree : FieldList → Tree
  | .mk list => .node (.fieldList (.mk list)) (fieldsTree list)
/-- Walk of an optional field list. -/
def optFieldListTree : Option FieldList → List Tree
  | none => []
  | some l => [fieldListTree l]
/-- The loop of the `*FieldList` case. -/
def fieldsTree : List Field → List Tree
  | [] => []
  | f :: fs => fieldTree f :: fieldsTree fs
/-- The `ast.Walk` case `*Field`. -/
def fieldTree : Field → Tree
  | .mk names typ tag =>
      .node (.field (.mk names typ tag))
        (names.map identTree ++ optExprTree typ ++ optBasicLitTree tag)
/-- The `ast.Walk` cases for statements. -/
def stmtTree : Stmt → Tree
  | .badStmt => .node (.stmt .badStmt) []
  | .declStmt decl => .node (.stmt (.declStmt decl)) [genDeclTree decl]
  | .emptyStmt => .node (.stmt .emptyStmt) []
  | .labeledStmt label stmt => .node (.stmt (.labeledStmt label stmt)) [identTree label, stmtTree stmt]
  | .exprStmt x => .node (.stmt (.exprStmt x)) [exprTree x]
  | .sendStmt chan value => .node (.stmt (.sendStmt chan value)) [exprTree chan, exprTree value]
  | .incDecStmt x tok => .node (.stmt (.incDecStmt x tok)) [exprTree x]
  | .assignStmt lhs tok rhs => .node (.stmt (.assignStmt lhs tok rhs)) (exprsTree lhs ++ exprsTree rhs)
  | .goStmt call => .node (.stmt (.goStmt call)) [callTree call]
  | .deferStmt call => .node (.stmt (.deferStmt call)) [callTree call]
  | .returnStmt results => .node (.stmt (.returnStmt results)) (exprsTree results)
  | .branchStmt tok label => .node (.stmt (.branchStmt tok label)) (optIdentTree label)
  | .blockStmt block => blockTree block
  | .ifStmt init cond body els =>
      .node (.stmt (.ifStmt init cond body els))
        (optStmtTree init ++ [exprTree cond, blockTree body] ++ optStmtTree els)
  | .caseClause list body => .node (.stmt (.caseClause list body)) (exprsTree list ++ stmtsTree body)
  | .switchStmt init tag body =>
      .node (.stmt (.switchStmt init tag body)) (optStmtTree init ++ optExprTree tag ++ [blockTree body])
  | .typeSwitchStmt init assign body =>
      .node (.stmt (.typeSwitchStmt init assign body))
        (optStmtTree init ++ [stmtTree assign, blockTree body])
  | .commClause comm body => .node (.stmt (.commClause comm body)) (optStmtTree comm ++ stmtsTree body)
  | .selectStmt body => .node (.stmt (.selectStmt body)) [blockTree body]
  | .forStmt init cond post body =>
      .node (.stmt (.forStmt init cond post body))
        (optStmtTree init ++ optExprTree cond ++ optStmtTree post ++ [blockTree body])
  | .rangeStmt key value tok x body =>
      .node (.stmt (.rangeStmt key value tok x body))
        (optExprTree key ++ optExprTree value ++ [exprTree x, blockTree body])
/-- Walk of an optional statement. -/
def optStmtTree : Option Stmt → List Tree
  | none => []
  | some s => [stmtTree s]
/-- Go `walkStmtList`. -/
def stmtsTree : List Stmt → List Tree
  | [] => []
  | s :: ss => stmtTree s :: stmtsTree ss
/-- The `ast.Walk` case `*BlockStmt`. -/
def blockTree : BlockStmt → Tree
  | .mk list => .node (.stmt (.blockStmt (.mk list))) (stmtsTree list)
/-- The `ast.Walk` cases for specs. -/
def specTree : Spec → Tree
  | .importSpec name path =>
      .node (.spec (.importSpec name path)) (optIdentTree name ++ [basicLitTree path])
  | .valueSpec names typ values =>
      .node (.spec (.valueSpec names typ values))
        (names.map identTree ++ optExprTree typ ++ exprsTree values)
  | .typeSpec name typeParams typ =>
      .node (.spec (.typeSpec name typeParams typ))
        (identTree name :: (optFieldListTree typeParams ++ [exprTree typ]))
/-- The loop of the `*GenDecl` case. -/
def specsTree : List Spec → List Tree
  | [] => []
  | s :: ss => specTree s :: specsTree ss
/-- The `ast.Walk` case `*GenDecl`. -/
def genDeclTree : GenDecl → Tree
  | .mk tok specs => .node (.decl (.genDecl (.mk tok specs))) (specsTree specs)
end

/-- Walk of an optional block (`if n.Body != nil`). -/
def optBlockTree : Option BlockStmt → List Tree
  | none => []
  | some b => [blockTree b]

/-- The `ast.Walk` case `*FuncDecl`. -/
def funcDeclTree (fn : FuncDecl) : Tree :=
  .node (.decl (.funcDecl fn))
    (optFieldListTree fn.Recv ++ [identTree fn.Name, funcTypeTree fn.Typ] ++ optBlockTree fn.Body)

/-- The `ast.Walk` cases for declarations. -/
def declTree : Decl → Tree
  | .badDecl => .node (.decl .badDecl) []
  | .genDecl d => genDeclTree d
  | .funcDecl d => funcDeclTree d

/-- The `ast.Walk` case `*File`. -/
def fileTree (f : File) : Tree :=
  .node (.file f) (identTree f.Name :: f.Decls.map declTree)

mutual
/-- All nodes of a walk, in depth-first pre-order. -/
def preorder : Tree → List Node
  | .node n kids => n :: preorderList kids
/-- Pre-order of a list of sibling walks. -/
def preorderList : List Tree → List Node
  | [] => []
  | t :: ts => preorder t ++ preorderList ts
end

mutual
/-- Go `ast.Inspect(root, f)`: call `f` on the node; if it answers `true`,
inspect the children in `ast.Walk` order and then call `f(nil)`.  The closure
`f` reads and updates captured variables, here the state `σ`; `none` is a
panic, which ends the walk. -/
def inspect {σ : Type} (f : σ → Option Node → Option (σ × Bool)) : Tree → σ → Option σ
  | .node n kids, s =>
      match f s (some n) with
      | none => none
      | some (s1, false) => some s1
      | some (s1, true) =>
          match inspectList f kids s1 with
          | none => none
          | some s2 =>
              match f s2 none with
              | none => none
              | some (s3, _) => some s3
/-- Inspect sibling subtrees from left to right. -/
def inspectList {σ : Type} (f : σ → Option Node → Option (σ × Bool)) : List Tree → σ → Option σ
  | [], s => some s
  | t :: ts, s =>
      match inspect f t s with
      | none => none
      | some s1 => inspectList f ts s1
end

/-! ## strings -/

/-- Go `strings.HasPrefix(s, pre)`. -/
def stringsHasPrefix (s pre : String) : Bool :=
  pre.data.isPrefixOf s.data

/-- Go `strings.Trim(s, cutset)`: all leading and all trailing characters that
belong to `cutset` are removed. -/
def stringsTrim (s cutset : String) : String :=
  String.mk
    (((s.data.dropWhile (fun c => cutset.data.contains c)).reverse.dropWhile
      (fun c => cutset.data.contains c)).reverse)

/-! ## cmd/main.go -/

/-- Go `TestCase`: a test case with its name, string representation, and
tested function code. -/
structure TestCase where
  Name : String
  Str : String
  TestedFunction : String
deriving DecidableEq, Repr

/-- Go `map[string][]TestCase`: `none` for an absent key. -/
abbrev TestCases := String → Option (List TestCase)

/-- Go `make(map[string][]TestCase)`. -/
def TestCases.empty : TestCases := fun _ => none

/-- Go `m[k]` as an r-value: an absent key reads as the nil slice. -/
def TestCases.get (m : TestCases) (k : String) : List TestCase :=
  (m k).getD []

/-- Go `m[k] = v`. -/
def TestCases.set (m : TestCases) (k : String) (v : List TestCase) : TestCases :=
  fun k1 => if k1 = k then some v else m k1

/-- The printer `printer.Fprint(&sb, fset, node)` followed by `sb.String()`. -/
abbrev Printer := Node → String

/-- Lines 57-63: one step of the loop over the fields of a record literal. -/
def nameStep (testCase : TestCase) (elt : Expr) : TestCase :=
  match elt with
  | .keyValueExpr key value =>
      match key with
      | .ident key =>
          if key.Name = "name" then
            match value with
            | .basicLit value =>
                if value.Kind = Token.STRING then
                  { testCase with Name := stringsTrim value.Value "\"" }
                else testCase
            | _ => testCase
          else testCase
      | _ => testCase
  | _ => testCase

/-- Lines 55-68: the test case built from the record literal `kv` with
elements `elts`. -/
def mkTestCase (P : Printer) (kv : Expr) (elts : List Expr) : TestCase :=
  { elts.foldl nameStep { Name := "", Str := "", TestedFunction := "" } with
    Str := P (.expr kv) }

/-- Lines 53-71: one step of the loop over the elements of an array-typed
composite literal; `name` is `fn.Name.Name`. -/
def caseStep (P : Printer) (name : String) (testCases : TestCases) (elt : Expr) : TestCases :=
  match elt with
  | .compositeLit typ elts =>
      testCases.set name (testCases.get name ++ [mkTestCase P (.compositeLit typ elts) elts])
  | _ => testCases

/-- Lines 48-75: the closure handed to the inner `ast.Inspect`. -/
def visitBody (P : Printer) (name : String) (testCases : TestCases) :
    Option Node → Option (TestCases × Bool)
  | some (.expr (.compositeLit (some (.arrayType _ _)) elts)) =>
      some (elts.foldl (caseStep P name) testCases, true)
  | _ => some (testCases, true)

/-- Go `ast.Inspect(fn.Body, f)` for the closures of this program, which
answer `true` on a block: with a nil `fn.Body` the walk dereferences the nil
block and panics. -/
def inspectBody {σ : Type} (f : σ → Option Node → Option (σ × Bool))
    (body : Option BlockStmt) (s : σ) : Option σ :=
  match body with
  | none => none
  | some b => inspect f (blockTree b) s

/-- Lines 40-79: the closure handed to the outer `ast.Inspect`. -/
def visitDecl (P : Printer) (testCases : TestCases) : Option Node → Option (TestCases × Bool)
  | some (.decl (.funcDecl fn)) =>
      if stringsHasPrefix fn.Name.Name "Test" then
        match inspectBody (visitBody P fn.Name.Name) fn.Body (testCases.set fn.Name.Name []) with
        | none => none
        | some testCases1 => some (testCases1, true)
      else some (testCases, true)
  | _ => some (testCases, true)

/-- Go `findTestCases`, from the parsed file on (lines 38-80). -/
def findTestCases (P : Printer) (node : File) : Option TestCases :=
  inspect (visitDecl P) (fileTree node) TestCases.empty

/-- The errors `findFunctionImplementation` returns. -/
inductive FindError where
  | readOrParse
  | notFound (functionName : String)
  | panicked
deriving DecidableEq, Repr

/-- Lines 99-109: the closure of `findFunctionImplementation`; the state is
`functionCode`. -/
def visitImpl (P : Printer) (functionName : String) (functionCode : String) :
    Option Node → Option (String × Bool)
  | some (.decl (.funcDecl fn)) =>
      if fn.Name.Name = functionName then some (P (.decl (.funcDecl fn)), false)
      else some (functionCode, true)
  | _ => some (functionCode, true)

/-- Go `findFunctionImplementation`; `impl` is the outcome of reading and
parsing `filePath` (`none` when either fails). -/
def findFunctionImplementation (P : Printer) (impl : Option File) (functionName : String) :
    Except FindError String :=
  match impl with
  | none => .error .readOrParse
  | some node =>
      match inspect (visitImpl P functionName) (fileTree node) "" with
      | none => .error .panicked
      | some functionCode =>
          if functionCode = "" then .error (.notFound functionName) else .ok functionCode

/-- Lines 121-130: the loop over `assignStmt.Lhs`; `none` is the index panic
of `assignStmt.Rhs[0]`. -/
def gotLoop (rhs : List Expr) (functionName : String) : List Expr → Option (String × Bool)
  | [] => some (functionName, true)
  | lhs :: rest =>
      match lhs with
      | .ident ident =>
          if ident.Name = "got" then
            match rhs with
            | [] => none
            | rhs0 :: _ =>
                match rhs0 with
                | .callExpr (.mk (.selectorExpr _ sel) _) => some (sel.Name, false)
                | _ => gotLoop rhs functionName rest
          else gotLoop rhs functionName rest
      | _ => gotLoop rhs functionName rest

/-- Lines 119-133: the closure of `findTestedFunctionName`; the state is
`functionName`. -/
def visitGot (functionName : String) : Option Node → Option (String × Bool)
  | some (.stmt (.assignStmt lhs _ rhs)) => gotLoop rhs functionName lhs
  | _ => some (functionName, true)

/-- Go `findTestedFunctionName`. -/
def findTestedFunctionName (fn : FuncDecl) : Option String :=
  inspectBody visitGot fn.Body ""

/-- Lines 168-170: set `TestedFunction` on every test case stored under `name`. -/
def setTestedFunction (testCases : TestCases) (name functionCode : String) : TestCases :=
  match testCases name with
  | none => testCases
  | some cases =>
      testCases.set name (cases.map (fun tc => { tc with TestedFunction := functionCode }))

/-- Lines 160-175: the closure of the enrichment pass of `main`. -/
def visitMain (P : Printer) (impl : Option File) (testCases : TestCases) :
    Option Node → Option (TestCases × Bool)
  | some (.decl (.funcDecl fn)) =>
      if stringsHasPrefix fn.Name.Name "Test" then
        match findTestedFunctionName fn with
        | none => none
        | some testedFunctionName =>
            if testedFunctionName ≠ "" then
              match findFunctionImplementation P impl testedFunctionName with
              | .error _ => some (testCases, true)
              | .ok functionCode =>
                  some (setTestedFunction testCases fn.Name.Name functionCode, true)
            else some (testCases, true)
      else some (testCases, true)
  | _ => some (testCases, true)

/-- Go `main`, lines 147-175: the collection after the enrichment pass.  The
test file is parsed twice from the same path, giving the same tree `node`;
`impl` is the implementation file as `findFunctionImplementation` finds it. -/
def mainEnrich (P : Printer) (node : File) (impl : Option File) : Option TestCases :=
  match findTestCases P node with
  | none => none
  | some testCases => inspect (visitMain P impl) (fileTree node) testCases

/-- The search of `strings.Replace(s, old, new, 1)`: the first occurrence of
`old`, scanning from the left, is replaced by `new`; without an occurrence the
text is returned unchanged. -/
def replaceFirst (old new : List Char) : List Char → List Char
  | [] => if old.isPrefixOf [] then new else []
  | c :: cs =>
      if old.isPrefixOf (c :: cs) then new ++ (c :: cs).drop old.length
      else c :: replaceFirst old new cs

/-- Go `strings.Replace(s, old, new, 1)`. -/
def stringsReplaceOnce (s old new : String) : String :=
  String.mk (replaceFirst old.data new.data s.data)

/-- Line 152 of `main`: the path of the implementation file. -/
def implFilePath (filePath : String) : String :=
  stringsReplaceOnce filePath "_test.go" ".go"

/-- Reading and parsing the file at a path: `none` when either fails. -/
abbrev FileSystem := String → Option File

/-- Go `main`, lines 141-175, up to the printing loop: `none` when no collection
is reached (missing flag, fatal parse error of the test file, or a panic). -/
def mainCollection (P : Printer) (fs : FileSystem) (filePath : String) : Option TestCases :=
  if filePath = "" then none
  else
    match fs filePath with
    | none => none
    | some node => mainEnrich P node (fs (implFilePath filePath))

/-- Go `createPrompt`. -/
def createPrompt (testName testData fnImplementation : String) : String :=
  let res := "Given this implementation: \n```" ++ fnImplementation ++ "```\n\n"
  let res := res ++ ("And this test case: \n```" ++ testData ++ "```\n\n")
  let res := res ++ ("The name \x27" ++ testName ++ "\x27 is a good choice?")
  res

/-! ## Vocabulary of the statements -/

/-- Left fold that stops at the first failure. -/
def foldOpt {σ α : Type} (g : σ → α → Option σ) : σ → List α → Option σ
  | s, [] => some s
  | s, a :: as =>
      match g s a with
      | none => none
      | some s1 => foldOpt g s1 as

/-- Whether a node is a `*ast.FuncDecl`. -/
def Node.isFuncDecl : Node → Bool
  | .decl (.funcDecl _) => true
  | _ => false

/-- No node of the walk `t` is a function declaration. -/
def noFD (t : Tree) : Prop := (preorder t).all (fun n => !n.isFuncDecl) = true

/-- No node of the walks `ts` is a function declaration. -/
def noFDs (ts : List Tree) : Prop := (preorderList ts).all (fun n => !n.isFuncDecl) = true

/-- The type assertion `n.(*ast.FuncDecl)` on a declaration. -/
def Decl.asFuncDecl : Decl → Option FuncDecl
  | .funcDecl fn => some fn
  | _ => none

/-- The function declarations of a file, in declaration order. -/
def funcDecls (node : File) : List FuncDecl :=
  node.Decls.filterMap Decl.asFuncDecl

/-- The function declarations whose name starts with `Test`. -/
def testDecls (node : File) : List FuncDecl :=
  (funcDecls node).filter (fun fn => stringsHasPrefix fn.Name.Name "Test")

/-- The last declaration named `k` among `fns`. -/
def lastNamed (k : String) (fns : List FuncDecl) : Option FuncDecl :=
  fns.reverse.find? (fun fn => decide (fn.Name.Name = k))

/-- One test case per composite-literal element, in element order. -/
def recordCases (P : Printer) (elts : List Expr) : List TestCase :=
  elts.filterMap (fun elt => match elt with
    | .compositeLit typ es => some (mkTestCase P (.compositeLit typ es) es)
    | _ => none)

/-- The test cases an array-typed composite literal node stands for; nothing
for any other node. -/
def nodeCases (P : Printer) : Node → List TestCase
  | .expr (.compositeLit (some (.arrayType _ _)) elts) => recordCases P elts
  | _ => []

/-- The concatenation, over the nodes of the body in pre-order, of the test
cases of each array-typed composite literal. -/
def bodyCases (P : Printer) (body : BlockStmt) : List TestCase :=
  (preorder (blockTree body)).flatMap (nodeCases P)

/-- The effect of the inner closure on one node (it always answers `true`). -/
def bodyStep (P : Printer) (name : String) (testCases : TestCases) (n : Node) : TestCases :=
  match n with
  | .expr (.compositeLit (some (.arrayType _ _)) elts) => elts.foldl (caseStep P name) testCases
  | _ => testCases

/-- The test cases of a declaration with a body. -/
def declCases (P : Printer) (fn : FuncDecl) : List TestCase :=
  match fn.Body with
  | some body => bodyCases P body
  | none => []

/-- The effect of the outer closure on one function declaration. -/
def collectStep (P : Printer) (testCases : TestCases) (fn : FuncDecl) : Option TestCases :=
  if stringsHasPrefix fn.Name.Name "Test" then
    match fn.Body with
    | none => none
    | some body => some (testCases.set fn.Name.Name (bodyCases P body))
  else some testCases

/-- The collection after the declarations `fns` have been handled: each name
maps to the test cases of the last declaration of that name. -/
def collected (P : Printer) (fns : List FuncDecl) (m0 : TestCases) : TestCases := fun k =>
  match lastNamed k fns with
  | some fn => some (declCases P fn)
  | none => m0 k

/-- Whether an expression is a composite literal. -/
def Expr.isCompositeLit : Expr → Bool
  | .compositeLit _ _ => true
  | _ => false

/-- The number of composite-literal elements of an array-typed composite
literal node; zero for any other node. -/
def recordCount : Node → Nat
  | .expr (.compositeLit (some (.arrayType _ _)) elts) => (elts.filter Expr.isCompositeLit).length
  | _ => 0

/-- Whether `elt` is a key-value pair whose key is the identifier `name` and
whose value is a string literal. -/
def isNamePair : Expr → Bool
  | .keyValueExpr (.ident key) (.basicLit value) =>
      decide (key.Name = "name") && decide (value.Kind = Token.STRING)
  | _ => false

/-- The node is an assignment statement with a left-hand identifier `got`
whose first right-hand expression is a call through a selector with trailing
name `N`. -/
def QualifyingGot (n : Node) (N : String) : Prop :=
  ∃ lhs tok x sel args rest,
    n = .stmt (.assignStmt lhs tok (.callExpr (.mk (.selectorExpr x sel) args) :: rest)) ∧
    Expr.ident ⟨"got"⟩ ∈ lhs ∧ sel.Name = N

/-- The assignment `lhs tok rhs` has a left-hand identifier `got` and its first
right-hand expression is a call through a selector with trailing name `N`. -/
def GotHit (lhs rhs : List Expr) (N : String) : Prop :=
  Expr.ident ⟨"got"⟩ ∈ lhs ∧
    ∃ x sel args rest, rhs = .callExpr (.mk (.selectorExpr x sel) args) :: rest ∧ sel.Name = N

/-- The node is an assignment statement without right-hand expressions. -/
def Node.isEmptyAssign : Node → Bool
  | .stmt (.assignStmt _ _ []) => true
  | _ => false

/-- Whether a node is an array-typed composite literal. -/
def Node.isArrayLit : Node → Bool
  | .expr (.compositeLit (some (.arrayType _ _)) _) => true
  | _ => false

/-- The root of a walk, when it is a composite literal. -/
def rootRecord : Tree → List Expr
  | .node (.expr (.compositeLit typ es)) _ => [.compositeLit typ es]
  | _ => []

mutual
/-- The record literals (composite-literal elements of array-typed composite
literals) below the root of a walk, in the order a pre-order walk reaches
them, which is the order in which they start in the source text. -/
def recordsInOrder : Tree → List Expr
  | .node n kids => if n.isArrayLit then recordsOfElts kids else recordsOfKids kids
/-- Records among and below the children of an array-typed composite literal. -/
def recordsOfElts : List Tree → List Expr
  | [] => []
  | t :: ts => rootRecord t ++ recordsInOrder t ++ recordsOfElts ts
/-- Records below the children of any other node. -/
def recordsOfKids : List Tree → List Expr
  | [] => []
  | t :: ts => recordsInOrder t ++ recordsOfKids ts
end

/-- The test case of a record literal. -/
def recordCase (P : Printer) : Expr → TestCase
  | .compositeLit typ es => mkTestCase P (.compositeLit typ es) es
  | e => mkTestCase P e []

mutual
/-- No array-typed composite literal lies inside another one. -/
def flatTables : Tree → Bool
  | .node n kids =>
      if n.isArrayLit then (preorderList kids).all (fun k => !k.isArrayLit) else flatTablesList kids
/-- No array-typed composite literal lies inside another one, for siblings. -/
def flatTablesList : List Tree → Bool
  | [] => true
  | t :: ts => flatTables t && flatTablesList ts
end

/-- The children of an array-typed composite literal node carry its elements:
the composite literals at the roots of the children are the composite-literal
elements of the literal. -/
def KidsOK (n : Node) (kids : List Tree) : Prop :=
  ∀ len elt elts, n = .expr (.compositeLit (some (.arrayType len elt)) elts) →
    kids.flatMap rootRecord = elts.filter Expr.isCompositeLit

mutual
/-- Every array-typed composite literal node of the walk has its elements as
children (true of every walk of a syntax tree, see `okTree_block`). -/
def okTree : Tree → Prop
  | .node n kids => KidsOK n kids ∧ okList kids
/-- The same for sibling walks. -/
def okList : List Tree → Prop
  | [] => True
  | t :: ts => okTree t ∧ okList ts
end

/-- The effect of the closure of `findFunctionImplementation` on one function
declaration. -/
def implStep (P : Printer) (functionName : String) (functionCode : String) (fn : FuncDecl) :
    String :=
  if fn.Name.Name = functionName then P (.decl (.funcDecl fn)) else functionCode

/-- The effect of the closure of the enrichment pass on one function
declaration. -/
def enrichStep (P : Printer) (impl : Option File) (testCases : TestCases) (fn : FuncDecl) :
    Option TestCases :=
  if stringsHasPrefix fn.Name.Name "Test" then
    match findTestedFunctionName fn with
    | none => none
    | some testedFunctionName =>
        if testedFunctionName ≠ "" then
          match findFunctionImplementation P impl testedFunctionName with
          | .error _ => some testCases
          | .ok functionCode => some (setTestedFunction testCases fn.Name.Name functionCode)
        else some testCases
  else some testCases

/-- Whether `pat` occurs in `s` as a contiguous run. -/
def listContains (pat : List Char) : List Char → Bool
  | [] => pat.isPrefixOf []
  | c :: cs => pat.isPrefixOf (c :: cs) || listContains pat cs

/-- Go `strings.Contains(s, substr)`. -/
def stringsContains (s substr : String) : Bool :=
  listContains substr.data s.data

/-- The declaration text the enrichment pass finds for a test function, if
the resolver gives a non-empty name and the lookup succeeds. -/
def resolvedCode (P : Printer) (impl : Option File) (fn : FuncDecl) : Option String :=
  match findTestedFunctionName fn with
  | none => none
  | some testedFunctionName =>
      if testedFunctionName ≠ "" then
        match findFunctionImplementation P impl testedFunctionName with
        | .error _ => none
        | .ok functionCode => some functionCode
      else none

/-- The test cases of a function after the enrichment pass. -/
def enrichCases (P : Printer) (impl : Option File) (fn : FuncDecl) (cases : List TestCase) :
    List TestCase :=
  match resolvedCode P impl fn with
  | none => cases
  | some functionCode => cases.map (fun tc => { tc with TestedFunction := functionCode })

/-- The collection after the enrichment pass has handled the declarations
`fns` (with pairwise distinct names), starting from `m0`. -/
def enriched (P : Printer) (impl : Option File) (fns : List FuncDecl) (m0 : TestCases) :
    TestCases := fun k =>
  match lastNamed k fns with
  | some fn => (m0 k).map (enrichCases P impl fn)
  | none => m0 k

/-- Every non-empty tested-function text in the collection comes from a `Test`
declaration of the file named like its key, whose resolver result is a
non-empty name for which the lookup in `impl` returns that text. -/
def Justified (P : Printer) (impl : Option File) (node : File) (m : TestCases) : Prop :=
  ∀ K cases tc, m K = some cases → tc ∈ cases → tc.TestedFunction ≠ "" →
    ∃ fn N, Decl.funcDecl fn ∈ node.Decls ∧ fn.Name.Name = K ∧
      stringsHasPrefix K "Test" = true ∧
      findTestedFunctionName fn = some N ∧ N ≠ "" ∧
      findFunctionImplementation P impl N = .ok tc.TestedFunction

/-- Every `Test` declaration of the file has a body, and no assignment
statement in such a body lacks right-hand expressions. -/
def TestsWellFormed (node : File) : Prop :=
  ∀ fn ∈ testDecls node, ∃ body, fn.Body = some body ∧
    ∀ n ∈ preorder (blockTree body), n.isEmptyAssign = false

/-! ## Worked inputs -/

/-- A stand-in printer for closed examples: a fixed text per kind of node. -/
def demoPrinter : Printer
  | .decl (.funcDecl fn) => "func " ++ fn.Name.Name
  | .expr (.compositeLit _ elts) => "lit/" ++ toString elts.length
  | _ => "node"

/-- The type `*testing.T`. -/
def testingT : Expr := .starExpr (.selectorExpr (.ident ⟨"testing"⟩) ⟨"T"⟩)

/-- The signature `(t *testing.T)`. -/
def testSig : FuncType :=
  .mk none (some (.mk [.mk [⟨"t"⟩] (some testingT) none])) none

/-- A test function `func name(t *testing.T) { body }`. -/
def testFunc (name : String) (body : List Stmt) : FuncDecl :=
  { Recv := none, Name := ⟨name⟩, Typ := testSig, Body := some (.mk body) }

/-- A test file `package p` with the given declarations. -/
def testFile (fns : List FuncDecl) : File :=
  { Name := ⟨"p"⟩, Decls := fns.map Decl.funcDecl }

/-- The string literal `"s"` as the scanner delivers it. -/
def strLit (s : String) : Expr := .basicLit ⟨.STRING, "\"" ++ s ++ "\""⟩

/-- The pair `name: "s"`. -/
def namePair (s : String) : Expr := .keyValueExpr (.ident ⟨"name"⟩) (strLit s)

/-- The type `[]T`. -/
def sliceOf (t : Expr) : Expr := .arrayType none t

/-- The statement `tests := lit`. -/
def defineTests (lit : Expr) : Stmt := .assignStmt [.ident ⟨"tests"⟩] .DEFINE [lit]

/-- The integer literal with text `s`. -/
def intLit (s : String) : Expr := .basicLit ⟨.INT, s⟩

/-- The record literal with elided type. -/
def record (fields : List Expr) : Expr := .compositeLit none fields

/-- The table literal `[]testRow` with the given records. -/
def tableOf (recs : List Expr) : Expr :=
  .compositeLit (some (sliceOf (.ident ⟨"testRow"⟩))) recs

/-- A method `func (s recvType) name(t *testing.T)` with the given body. -/
def methodFunc (recvType name : String) (body : List Stmt) : FuncDecl :=
  { Recv := some (.mk [.mk [⟨"s"⟩] (some (.ident ⟨recvType⟩)) none]),
    Name := ⟨name⟩, Typ := testSig, Body := some (.mk body) }

/-- The method `func (s SuiteA) TestX(t *testing.T)` with an empty body. -/
def dupFirst : FuncDecl := methodFunc "SuiteA" "TestX" []

/-- The method `func (s SuiteB) TestX(t *testing.T)` with a one-row table. -/
def dupSecond : FuncDecl :=
  methodFunc "SuiteB" "TestX" [defineTests (tableOf [record [namePair "x"]])]

/-- A file that declares `TestX` on two receiver types. -/
def dupFile : File := { Name := ⟨"p"⟩, Decls := [.funcDecl dupFirst, .funcDecl dupSecond] }

/-- A file with one test function and a one-row table:
`tests := []testRow` with the row `name: "positive", a: 2`. -/
def oneRowFile : File :=
  testFile [testFunc "TestAdd" [defineTests (tableOf
    [record [namePair "positive", .keyValueExpr (.ident ⟨"a"⟩) (intLit "2")]])]]

/-- The literal's text with exactly its opening and closing delimiters
removed. -/
def unquoted (s : String) : String := String.mk (s.data.drop 1).dropLast

/-- The literal `"say \"hi\""`, whose content ends with an escaped quote. -/
def escapedLit : BasicLit := ⟨.STRING, "\"say \\\"hi\\\"\""⟩

/-- The raw literal with back quotes around `raw`. -/
def rawLit : BasicLit := ⟨.STRING, "`raw`"⟩

/-- A test function whose table has the rows `name: "say \"hi\""` and
`name:` followed by the raw literal. -/
def quoteFile : File :=
  testFile [testFunc "TestQuote" [defineTests (tableOf
    [record [.keyValueExpr (.ident ⟨"name"⟩) (.basicLit escapedLit)],
     record [.keyValueExpr (.ident ⟨"name"⟩) (.basicLit rawLit)]])]]

/-- A test function with the statement `grid := [][]int` with the elements
`1` and `2` each in braces. -/
def gridFile : File :=
  testFile [testFunc "TestGrid" [.assignStmt [.ident ⟨"grid"⟩] .DEFINE
    [.compositeLit (some (sliceOf (sliceOf (.ident ⟨"int"⟩))))
      [record [intLit "1"], record [intLit "2"]]]]]

/-- The body `tests := []testRow` with the rows `name: "a", sub: []testRow`
(holding the row `name: "a1"`) and `name: "b"`: a table nested inside the first
row of another. -/
def nestedBody : BlockStmt :=
  .mk [defineTests (tableOf
    [record [namePair "a",
       .keyValueExpr (.ident ⟨"sub"⟩) (tableOf [record [namePair "a1"]])],
     record [namePair "b"]])]

/-- The test file with the function `TestNested` and the body `nestedBody`. -/
def nestedFile : File :=
  testFile [{ Recv := none, Name := ⟨"TestNested"⟩, Typ := testSig, Body := some nestedBody }]

/-- The fields `2, Name: "x", name: 7`: none is a pair `name: <string>`. -/
def namelessFields : List Expr :=
  [intLit "2", .keyValueExpr (.ident ⟨"Name"⟩) (strLit "x"),
   .keyValueExpr (.ident ⟨"name"⟩) (intLit "7")]

/-- A test function whose table has the one row `namelessFields`. -/
def namelessFunc : FuncDecl :=
  testFunc "TestPos" [defineTests (tableOf [record namelessFields])]

/-- The call `recv.name()`. -/
def methodCall (recv name : String) (args : List Expr) : Expr :=
  .callExpr (.mk (.selectorExpr (.ident ⟨recv⟩) ⟨name⟩) args)

/-- A test function with the body `got := a.Foo()` followed by `got = b.Bar()`. -/
def twoGotFunc : FuncDecl :=
  testFunc "TestTwo"
    [.assignStmt [.ident ⟨"got"⟩] .DEFINE [methodCall "a" "Foo" []],
     .assignStmt [.ident ⟨"got"⟩] .ASSIGN [methodCall "b" "Bar" []]]

/-- The pair `key: value`. -/
def fieldPair (key : String) (value : Expr) : Expr := .keyValueExpr (.ident ⟨key⟩) value

/-- The selector `tt.field`. -/
def ttField (field : String) : Expr := .selectorExpr (.ident ⟨"tt"⟩) ⟨field⟩

/-- The type `struct` with the fields `name string` and `a, b, want int`. -/
def rowType : Expr :=
  .structType (.mk
    [.mk [⟨"name"⟩] (some (.ident ⟨"string"⟩)) none,
     .mk [⟨"a"⟩, ⟨"b"⟩, ⟨"want"⟩] (some (.ident ⟨"int"⟩)) none])

/-- The row `name: "positive", a: 2, b: 3, want: 5` of the spec's example. -/
def exampleRow : Expr :=
  record [namePair "positive", fieldPair "a" (intLit "2"), fieldPair "b" (intLit "3"),
    fieldPair "want" (intLit "5")]

/-- The body of `TestAdd` in the spec's example: the table `tests`, then a
loop `for _, tt := range tests` with `got := callee(tt.a, tt.b)` and the
comparison of `got` with `tt.want`. -/
def exampleBody (callee : Expr) : List Stmt :=
  [defineTests (.compositeLit (some (sliceOf rowType)) [exampleRow]),
   .rangeStmt (some (.ident ⟨"_"⟩)) (some (.ident ⟨"tt"⟩)) .DEFINE (.ident ⟨"tests"⟩)
     (.mk
       [.assignStmt [.ident ⟨"got"⟩] .DEFINE [.callExpr (.mk callee [ttField "a", ttField "b"])],
        .ifStmt none (.binaryExpr (.ident ⟨"got"⟩) .NEQ (ttField "want"))
          (.mk [.exprStmt (methodCall "t" "Errorf" [strLit "got %v", .ident ⟨"got"⟩])]) none])]

/-- The test file of the spec's example, with the given callee. -/
def exampleFile (callee : Expr) : File := testFile [testFunc "TestAdd" (exampleBody callee)]

/-- The declaration `func Add(a, b int) int` with the body `return a + b`. -/
def addDecl : FuncDecl :=
  { Recv := none, Name := ⟨"Add"⟩,
    Typ := .mk none (some (.mk [.mk [⟨"a"⟩, ⟨"b"⟩] (some (.ident ⟨"int"⟩)) none]))
      (some (.mk [.mk [] (some (.ident ⟨"int"⟩)) none])),
    Body := some (.mk [.returnStmt [.binaryExpr (.ident ⟨"a"⟩) .ADD (.ident ⟨"b"⟩)]]) }

/-- The companion implementation file: `package p` with `Add`. -/
def implAdd : File := { Name := ⟨"p"⟩, Decls := [.funcDecl addDecl] }

/-- A stand-in printer that shows the receiver type of a method:
`func (T) name` for a method on `T`, `func name` for a function. -/
def recvPrinter : Printer
  | .decl (.funcDecl fn) =>
      match fn.Recv with
      | some (.mk (.mk _ (some (.ident t)) _ :: _)) => "func (" ++ t.Name ++ ") " ++ fn.Name.Name
      | _ => "func " ++ fn.Name.Name
  | .expr (.compositeLit _ elts) => "lit/" ++ toString elts.length
  | _ => "node"

/-- The method `func (s Stack) Get(t *testing.T)` with an empty body. -/
def getOnStack : FuncDecl := methodFunc "Stack" "Get" []

/-- The method `func (s Queue) Get(t *testing.T)` with an empty body. -/
def getOnQueue : FuncDecl := methodFunc "Queue" "Get" []

/-- An implementation file that declares `Get` on two receiver types. -/
def twoGetFile : File := { Name := ⟨"p"⟩, Decls := [.funcDecl getOnStack, .funcDecl getOnQueue] }

/-- The method `func (s SuiteA) TestX(t *testing.T)` with the one-row table
`name: "first"`. -/
def dupEarlier : FuncDecl :=
  methodFunc "SuiteA" "TestX" [defineTests (tableOf [record [namePair "first"]])]

/-- A file that declares `TestX` twice, each time with a one-row table. -/
def dupTablesFile : File :=
  { Name := ⟨"p"⟩, Decls := [.funcDecl dupEarlier, .funcDecl dupSecond] }

/-- A test function `TestSub` whose body is `got := calc.Sub(1)`. -/
def subFunc : FuncDecl :=
  testFunc "TestSub"
    [defineTests (tableOf [record [namePair "minus"]]),
     .assignStmt [.ident ⟨"got"⟩] .DEFINE [methodCall "calc" "Sub" [intLit "1"]]]

/-- A test function `TestAdd` whose body is `got := calc.Add(1)`. -/
def addFunc : FuncDecl :=
  testFunc "TestAdd"
    [defineTests (tableOf [record [namePair "plus"]]),
     .assignStmt [.ident ⟨"got"⟩] .DEFINE [methodCall "calc" "Add" [intLit "1"]]]

/-- A test file with `TestSub` (whose tested function `Sub` is missing from
`implAdd`) followed by `TestAdd`. -/
def subAddFile : File := testFile [subFunc, addFunc]

/-- A file system with the test file `calc_test.go` and its companion
`calc.go`. -/
def calcFiles : FileSystem := fun path =>
  if path = "calc_test.go" then some subAddFile
  else if path = "calc.go" then some implAdd
  else none

/-- The method `func (s SuiteA) TestPos(t *testing.T)` whose table has the one
row `namelessFields`. -/
def namelessFirst : FuncDecl :=
  methodFunc "SuiteA" "TestPos" [defineTests (tableOf [record namelessFields])]

/-- The method `func (s SuiteB) TestPos(t *testing.T)` with an empty body. -/
def namelessSecond : FuncDecl := methodFunc "SuiteB" "TestPos" []

/-- A file that declares `TestPos` twice; the first declaration holds the row
without a name. -/
def namelessDupFile : File :=
  { Name := ⟨"p"⟩, Decls := [.funcDecl namelessFirst, .funcDecl namelessSecond] }

/-! ## The walk of a file -/


theorem foldOpt_append {σ α : Type} (g : σ → α → Option σ) (l1 l2 : List α) (s : σ) :
    foldOpt g s (l1 ++ l2) = (foldOpt g s l1).bind (fun s1 => foldOpt g s1 l2) := by
  induction l1 generalizing s with
  | nil => rfl
  | cons a as ih =>
      simp only [List.cons_append, foldOpt]
      cases g s a with
      | none => rfl
      | some s1 => exact ih s1

mutual
theorem inspect_eq_foldOpt {σ : Type} (f : σ → Option Node → Option (σ × Bool))
    (g : σ → Node → Option σ)
    (hg : ∀ s n, f s (some n) = (g s n).map (fun s1 => (s1, true)))
    (hnil : ∀ s, f s none = some (s, true)) :
    ∀ (t : Tree) (s : σ), inspect f t s = foldOpt g s (preorder t)
  | .node n kids, s => by
      simp only [inspect, preorder, foldOpt, hg]
      cases g s n with
      | none => rfl
      | some s1 =>
          simp only [Option.map_some']
          rw [inspectList_eq_foldOpt f g hg hnil kids s1]
          cases foldOpt g s1 (preorderList kids) with
          | none => rfl
          | some s2 => simp only [hnil]
theorem inspectList_eq_foldOpt {σ : Type} (f : σ → Option Node → Option (σ × Bool))
    (g : σ → Node → Option σ)
    (hg : ∀ s n, f s (some n) = (g s n).map (fun s1 => (s1, true)))
    (hnil : ∀ s, f s none = some (s, true)) :
    ∀ (ts : List Tree) (s : σ), inspectList f ts s = foldOpt g s (preorderList ts)
  | [], s => rfl
  | t :: ts, s => by
      simp only [inspectList, preorderList, foldOpt_append]
      rw [inspect_eq_foldOpt f g hg hnil t s]
      cases foldOpt g s (preorder t) with
      | none => rfl
      | some s1 => exact inspectList_eq_foldOpt f g hg hnil ts s1
end

theorem noFDs_nil : noFDs [] := rfl
theorem noFDs_cons {t ts} : noFDs (t :: ts) ↔ noFD t ∧ noFDs ts := by
  simp [noFDs, noFD, preorderList, List.all_append]
theorem noFDs_append {l1 l2} : noFDs (l1 ++ l2) ↔ noFDs l1 ∧ noFDs l2 := by
  induction l1 with
  | nil => simp [noFDs_nil]
  | cons t ts ih => simp [noFDs_cons, ih, and_assoc]
theorem noFD_node {n kids} : noFD (.node n kids) ↔ n.isFuncDecl = false ∧ noFDs kids := by
  simp [noFD, noFDs, preorder]
theorem noFDs_idents (names : List Ident) : noFDs (names.map identTree) := by
  induction names with
  | nil => exact noFDs_nil
  | cons a as ih => simp [noFDs_cons, ih, identTree, noFD_node, Node.isFuncDecl, noFDs_nil]
theorem noFDs_optIdent (o : Option Ident) : noFDs (optIdentTree o) := by
  cases o <;> simp [optIdentTree, noFDs_cons, identTree, noFD_node, Node.isFuncDecl, noFDs_nil]
theorem noFDs_optBasicLit (o : Option BasicLit) : noFDs (optBasicLitTree o) := by
  cases o <;> simp [optBasicLitTree, noFDs_cons, basicLitTree, noFD_node, Node.isFuncDecl, noFDs_nil]

mutual
theorem noFD_expr : ∀ e : Expr, noFD (exprTree e)
  | .badExpr => by simp [exprTree, noFD_node, Node.isFuncDecl, noFDs_nil]
  | .ident id => by simp [exprTree, noFD_node, Node.isFuncDecl, noFDs_nil]
  | .ellipsis elt => by simp [exprTree, noFD_node, Node.isFuncDecl, noFDs_optExpr elt]
  | .basicLit lit => by simp [exprTree, noFD_node, Node.isFuncDecl, noFDs_nil]
  | .funcLit typ body => by
      simp [exprTree, noFD_node, Node.isFuncDecl, noFDs_cons, noFDs_nil, noFD_funcType typ, noFD_block body]
  | .compositeLit typ elts => by
      simp [exprTree, noFD_node, Node.isFuncDecl, noFDs_append, noFDs_optExpr typ, noFDs_exprs elts]
  | .parenExpr x => by simp [exprTree, noFD_node, Node.isFuncDecl, noFDs_cons, noFDs_nil, noFD_expr x]
  | .selectorExpr x sel => by
      simp [exprTree, noFD_node, Node.isFuncDecl, noFDs_cons, noFDs_nil, noFD_expr x, identTree]
  | .indexExpr x index => by
      simp [exprTree, noFD_node, Node.isFuncDecl, noFDs_cons, noFDs_nil, noFD_expr x, noFD_expr index]
  | .indexListExpr x indices => by
      simp [exprTree, noFD_node, Node.isFuncDecl, noFDs_cons, noFD_expr x, noFDs_exprs indices]
  | .sliceExpr x low high max => by
      simp [exprTree, noFD_node, Node.isFuncDecl, noFDs_cons, noFDs_append, noFD_expr x,
        noFDs_optExpr low, noFDs_optExpr high, noFDs_optExpr max]
  | .typeAssertExpr x typ => by
      simp [exprTree, noFD_node, Node.isFuncDecl, noFDs_cons, noFD_expr x, noFDs_optExpr typ]
  | .callExpr call => by simp [exprTree, noFD_call call]
  | .starExpr x => by simp [exprTree, noFD_node, Node.isFuncDecl, noFDs_cons, noFDs_nil, noFD_expr x]
  | .unaryExpr op x => by simp [exprTree, noFD_node, Node.isFuncDecl, noFDs_cons, noFDs_nil, noFD_expr x]
  | .binaryExpr x op y => by
      simp [exprTree, noFD_node, Node.isFuncDecl, noFDs_cons, noFDs_nil, noFD_expr x, noFD_expr y]
  | .keyValueExpr key value => by
      simp [exprTree, noFD_node, Node.isFuncDecl, noFDs_cons, noFDs_nil, noFD_expr key, noFD_expr value]
  | .arrayType len elt => by
      simp [exprTree, noFD_node, Node.isFuncDecl, noFDs_cons, noFDs_append, noFDs_nil, noFDs_optExpr len, noFD_expr elt]
  | .structType fields => by
      simp [exprTree, noFD_node, Node.isFuncDecl, noFDs_cons, noFDs_nil, noFD_fieldList fields]
  | .funcType ft => by simp [exprTree, noFD_funcType ft]
  | .interfaceType methods => by
      simp [exprTree, noFD_node, Node.isFuncDecl, noFDs_cons, noFDs_nil, noFD_fieldList methods]
  | .mapType key value => by
      simp [exprTree, noFD_node, Node.isFuncDecl, noFDs_cons, noFDs_nil, noFD_expr key, noFD_expr value]
  | .chanType dir value => by
      simp [exprTree, noFD_node, Node.isFuncDecl, noFDs_cons, noFDs_nil, noFD_expr value]
theorem noFDs_optExpr : ∀ o : Option Expr, noFDs (optExprTree o)
  | none => by simp [optExprTree, noFDs_nil]
  | some e => by simp [optExprTree, noFDs_cons, noFDs_nil, noFD_expr e]
theorem noFDs_exprs : ∀ es : List Expr, noFDs (exprsTree es)
  | [] => by simp [exprsTree, noFDs_nil]
  | e :: es => by simp [exprsTree, noFDs_cons, noFD_expr e, noFDs_exprs es]
theorem noFD_call : ∀ c : CallExpr, noFD (callTree c)
  | .mk fn args => by
      simp [callTree, noFD_node, Node.isFuncDecl, noFDs_cons, noFD_expr fn, noFDs_exprs args]
theorem noFD_funcType : ∀ t : FuncType, noFD (funcTypeTree t)
  | .mk typeParams params results => by
      simp [funcTypeTree, noFD_node, Node.isFuncDecl, noFDs_append, noFDs_optFieldList typeParams,
        noFDs_optFieldList params, noFDs_optFieldList results]
theorem noFD_fieldList : ∀ l : FieldList, noFD (fieldListTree l)
  | .mk list => by simp [fieldListTree, noFD_node, Node.isFuncDecl, noFDs_fields list]
theorem noFDs_optFieldList : ∀ o : Option FieldList, noFDs (optFieldListTree o)
  | none => by simp [optFieldListTree, noFDs_nil]
  | some l => by simp [optFieldListTree, noFDs_cons, noFDs_nil, noFD_fieldList l]
theorem noFDs_fields : ∀ fs : List Field, noFDs (fieldsTree fs)
  | [] => by simp [fieldsTree, noFDs_nil]
  | f :: fs => by simp [fieldsTree, noFDs_cons, noFD_field f, noFDs_fields fs]
theorem noFD_field : ∀ f : Field, noFD (fieldTree f)
  | .mk names typ tag => by
      simp [fieldTree, noFD_node, Node.isFuncDecl, noFDs_append, noFDs_idents, noFDs_optExpr typ,
        noFDs_optBasicLit]
theorem noFD_stmt : ∀ s : Stmt, noFD (stmtTree s)
  | .badStmt => by simp [stmtTree, noFD_node, Node.isFuncDecl, noFDs_nil]
  | .declStmt decl => by
      simp [stmtTree, noFD_node, Node.isFuncDecl, noFDs_cons, noFDs_nil, noFD_genDecl decl]
  | .emptyStmt => by simp [stmtTree, noFD_node, Node.isFuncDecl, noFDs_nil]
  | .labeledStmt label stmt => by
      simp [stmtTree, noFD_node, Node.isFuncDecl, noFDs_cons, noFDs_nil, identTree, noFD_stmt stmt]
  | .exprStmt x => by simp [stmtTree, noFD_node, Node.isFuncDecl, noFDs_cons, noFDs_nil, noFD_expr x]
  | .sendStmt chan value => by
      simp [stmtTree, noFD_node, Node.isFuncDecl, noFDs_cons, noFDs_nil, noFD_expr chan, noFD_expr value]
  | .incDecStmt x tok => by simp [stmtTree, noFD_node, Node.isFuncDecl, noFDs_cons, noFDs_nil, noFD_expr x]
  | .assignStmt lhs tok rhs => by
      simp [stmtTree, noFD_node, Node.isFuncDecl, noFDs_append, noFDs_exprs lhs, noFDs_exprs rhs]
  | .goStmt call => by simp [stmtTree, noFD_node, Node.isFuncDecl, noFDs_cons, noFDs_nil, noFD_call call]
  | .deferStmt call => by simp [stmtTree, noFD_node, Node.isFuncDecl, noFDs_cons, noFDs_nil, noFD_call call]
  | .returnStmt results => by simp [stmtTree, noFD_node, Node.isFuncDecl, noFDs_exprs results]
  | .branchStmt tok label => by simp [stmtTree, noFD_node, Node.isFuncDecl, noFDs_optIdent]
  | .blockStmt block => by simp [stmtTree, noFD_block block]
  | .ifStmt init cond body els => by
      simp [stmtTree, noFD_node, Node.isFuncDecl, noFDs_append, noFDs_cons, noFDs_nil,
        noFDs_optStmt init, noFD_expr cond, noFD_block body, noFDs_optStmt els]
  | .caseClause list body => by
      simp [stmtTree, noFD_node, Node.isFuncDecl, noFDs_append, noFDs_exprs list, noFDs_stmts body]
  | .switchStmt init tag body => by
      simp [stmtTree, noFD_node, Node.isFuncDecl, noFDs_append, noFDs_cons, noFDs_nil,
        noFDs_optStmt init, noFDs_optExpr tag, noFD_block body]
  | .typeSwitchStmt init assign body => by
      simp [stmtTree, noFD_node, Node.isFuncDecl, noFDs_append, noFDs_cons, noFDs_nil,
        noFDs_optStmt init, noFD_stmt assign, noFD_block body]
  | .commClause comm body => by
      simp [stmtTree, noFD_node, Node.isFuncDecl, noFDs_append, noFDs_optStmt comm, noFDs_stmts body]
  | .selectStmt body => by
      simp [stmtTree, noFD_node, Node.isFuncDecl, noFDs_cons, noFDs_nil, noFD_block body]
  | .forStmt init cond post body => by
      simp [stmtTree, noFD_node, Node.isFuncDecl, noFDs_append, noFDs_cons, noFDs_nil,
        noFDs_optStmt init, noFDs_optExpr cond, noFDs_optStmt post, noFD_block body]
  | .rangeStmt key value tok x body => by
      simp [stmtTree, noFD_node, Node.isFuncDecl, noFDs_append, noFDs_cons, noFDs_nil,
        noFDs_optExpr key, noFDs_optExpr value, noFD_expr x, noFD_block body]
theorem noFDs_optStmt : ∀ o : Option Stmt, noFDs (optStmtTree o)
  | none => by simp [optStmtTree, noFDs_nil]
  | some s => by simp [optStmtTree, noFDs_cons, noFDs_nil, noFD_stmt s]
theorem noFDs_stmts : ∀ ss : List Stmt, noFDs (stmtsTree ss)
  | [] => by simp [stmtsTree, noFDs_nil]
  | s :: ss => by simp [stmtsTree, noFDs_cons, noFD_stmt s, noFDs_stmts ss]
theorem noFD_block : ∀ b : BlockStmt, noFD (blockTree b)
  | .mk list => by simp [blockTree, noFD_node, Node.isFuncDecl, noFDs_stmts list]
theorem noFD_spec : ∀ s : Spec, noFD (specTree s)
  | .importSpec name path => by
      simp [specTree, noFD_node, Node.isFuncDecl, noFDs_append, noFDs_cons, noFDs_nil,
        noFDs_optIdent, basicLitTree]
  | .valueSpec names typ values => by
      simp [specTree, noFD_node, Node.isFuncDecl, noFDs_append, noFDs_idents, noFDs_optExpr typ,
        noFDs_exprs values]
  | .typeSpec name typeParams typ => by
      simp [specTree, noFD_node, Node.isFuncDecl, noFDs_append, noFDs_cons, noFDs_nil, identTree,
        noFDs_optFieldList typeParams, noFD_expr typ]
theorem noFDs_specs : ∀ ss : List Spec, noFDs (specsTree ss)
  | [] => by simp [specsTree, noFDs_nil]
  | s :: ss => by simp [specsTree, noFDs_cons, noFD_spec s, noFDs_specs ss]
theorem noFD_genDecl : ∀ d : GenDecl, noFD (genDeclTree d)
  | .mk tok specs => by simp [genDeclTree, noFD_node, Node.isFuncDecl, noFDs_specs specs]
end

theorem noFD_filter {t : Tree} (h : noFD t) : (preorder t).filter Node.isFuncDecl = [] := by
  rw [List.filter_eq_nil_iff]
  intro a ha
  have := (List.all_eq_true.mp h) a ha
  simpa using this

theorem noFDs_filter {ts : List Tree} (h : noFDs ts) :
    (preorderList ts).filter Node.isFuncDecl = [] := by
  rw [List.filter_eq_nil_iff]
  intro a ha
  have := (List.all_eq_true.mp h) a ha
  simpa using this

mutual
theorem inspect_idle {σ : Type} (f : σ → Option Node → Option (σ × Bool))
    (hidle : ∀ s n, n.isFuncDecl = false → f s (some n) = some (s, true))
    (hnil : ∀ s, f s none = some (s, true)) :
    ∀ (t : Tree) (s : σ), noFD t → inspect f t s = some s
  | .node n kids, s, h => by
      rw [noFD_node] at h
      simp only [inspect, hidle s n h.1, inspectList_idle f hidle hnil kids s h.2, hnil]
theorem inspectList_idle {σ : Type} (f : σ → Option Node → Option (σ × Bool))
    (hidle : ∀ s n, n.isFuncDecl = false → f s (some n) = some (s, true))
    (hnil : ∀ s, f s none = some (s, true)) :
    ∀ (ts : List Tree) (s : σ), noFDs ts → inspectList f ts s = some s
  | [], s, _ => rfl
  | t :: ts, s, h => by
      rw [noFDs_cons] at h
      simp only [inspectList, inspect_idle f hidle hnil t s h.1,
        inspectList_idle f hidle hnil ts s h.2]
end

theorem noFDs_funcDecl_kids (fn : FuncDecl) :
    noFDs (optFieldListTree fn.Recv ++ [identTree fn.Name, funcTypeTree fn.Typ] ++
      optBlockTree fn.Body) := by
  have hb : noFDs (optBlockTree fn.Body) := by
    cases fn.Body with
    | none => exact noFDs_nil
    | some b => simp [optBlockTree, noFDs_cons, noFDs_nil, noFD_block b]
  simp [noFDs_append, noFDs_cons, noFDs_nil, noFDs_optFieldList fn.Recv, identTree, noFD_node,
    Node.isFuncDecl, noFD_funcType fn.Typ, hb]

/-- The decision `f` takes on a function declaration does not matter for the
rest of the walk: below a declaration there is no other declaration. -/
theorem inspect_decls {σ : Type} (f : σ → Option Node → Option (σ × Bool))
    (g : σ → FuncDecl → Option σ) (b : σ → FuncDecl → Bool)
    (hidle : ∀ s n, n.isFuncDecl = false → f s (some n) = some (s, true))
    (hnil : ∀ s, f s none = some (s, true))
    (hfd : ∀ s fn, f s (some (.decl (.funcDecl fn))) = (g s fn).map (fun s1 => (s1, b s fn))) :
    ∀ (ds : List Decl) (s : σ),
      inspectList f (ds.map declTree) s =
        foldOpt g s (ds.filterMap Decl.asFuncDecl)
  | [], s => rfl
  | d :: ds, s => by
      cases d with
      | badDecl =>
          simp only [List.map_cons, inspectList, declTree, inspect,
            hidle s (.decl .badDecl) rfl, hnil, List.filterMap_cons, Decl.asFuncDecl]
          exact inspect_decls f g b hidle hnil hfd ds s
      | genDecl gd =>
          simp only [List.map_cons, inspectList, declTree,
            inspect_idle f hidle hnil _ s (noFD_genDecl gd), List.filterMap_cons, Decl.asFuncDecl]
          exact inspect_decls f g b hidle hnil hfd ds s
      | funcDecl fn =>
          simp only [List.map_cons, inspectList, declTree, funcDeclTree, inspect, hfd,
            List.filterMap_cons, foldOpt, Decl.asFuncDecl]
          cases hgs : g s fn with
          | none => rfl
          | some s1 =>
              simp only [Option.map_some']
              cases hb : b s fn with
              | false => exact inspect_decls f g b hidle hnil hfd ds s1
              | true =>
                  simp only [inspectList_idle f hidle hnil _ s1 (noFDs_funcDecl_kids fn), hnil]
                  exact inspect_decls f g b hidle hnil hfd ds s1

/-- An `ast.Inspect` over a file, by a closure that acts on function
declarations only, is a fold over the file's function declarations. -/
theorem inspect_fileTree {σ : Type} (f : σ → Option Node → Option (σ × Bool))
    (g : σ → FuncDecl → Option σ) (b : σ → FuncDecl → Bool)
    (hidle : ∀ s n, n.isFuncDecl = false → f s (some n) = some (s, true))
    (hnil : ∀ s, f s none = some (s, true))
    (hfd : ∀ s fn, f s (some (.decl (.funcDecl fn))) = (g s fn).map (fun s1 => (s1, b s fn)))
    (node : File) (s : σ) :
    inspect f (fileTree node) s = foldOpt g s (funcDecls node) := by
  simp only [fileTree, inspect, hidle s (.file node) rfl, inspectList, identTree,
    hidle s (.expr (.ident node.Name)) rfl, hnil]
  rw [inspect_decls f g b hidle hnil hfd node.Decls s]
  simp only [funcDecls]
  cases foldOpt g s (node.Decls.filterMap Decl.asFuncDecl) <;> rfl

/-! ## findTestCases: the walk of a body -/


theorem foldOpt_some {σ α : Type} (h : σ → α → σ) (l : List α) (s : σ) :
    foldOpt (fun s a => some (h s a)) s l = some (l.foldl h s) := by
  induction l generalizing s with
  | nil => rfl
  | cons a as ih => simp only [foldOpt, List.foldl_cons, ih]

theorem TestCases.set_set (m : TestCases) (k : String) (a b : List TestCase) :
    (m.set k a).set k b = m.set k b := by
  funext k1
  simp only [TestCases.set]
  split <;> rfl

theorem TestCases.set_same (m : TestCases) (k : String) (l : List TestCase) (h : m k = some l) :
    m.set k l = m := by
  funext k1
  simp only [TestCases.set]
  split
  · next hk => rw [hk, h]
  · rfl

theorem TestCases.set_at (m : TestCases) (k : String) (l : List TestCase) :
    (m.set k l) k = some l := by
  simp [TestCases.set]

theorem caseStep_foldl (P : Printer) (name : String) (elts : List Expr) :
    ∀ (m : TestCases) (l : List TestCase), m name = some l →
      elts.foldl (caseStep P name) m = m.set name (l ++ recordCases P elts) := by
  induction elts with
  | nil =>
      intro m l h
      simp [recordCases, TestCases.set_same m name l h]
  | cons e es ih =>
      intro m l h
      cases e with
      | compositeLit typ es1 =>
          simp only [List.foldl_cons, caseStep, TestCases.get, h, Option.getD_some]
          rw [ih _ _ (TestCases.set_at _ _ _), TestCases.set_set]
          simp [recordCases]
      | _ =>
          simp only [List.foldl_cons, caseStep]
          rw [ih m l h]
          simp [recordCases]

theorem bodyStep_eq (P : Printer) (name : String) (m : TestCases) (l : List TestCase)
    (h : m name = some l) (n : Node) :
    bodyStep P name m n = m.set name (l ++ nodeCases P n) := by
  unfold bodyStep nodeCases
  split
  · exact caseStep_foldl P name _ m l h
  · simp [TestCases.set_same m name l h]

theorem bodyStep_foldl (P : Printer) (name : String) (ns : List Node) :
    ∀ (m : TestCases) (l : List TestCase), m name = some l →
      ns.foldl (bodyStep P name) m = m.set name (l ++ ns.flatMap (nodeCases P)) := by
  induction ns with
  | nil =>
      intro m l h
      simp [TestCases.set_same m name l h]
  | cons n ns ih =>
      intro m l h
      simp only [List.foldl_cons]
      rw [bodyStep_eq P name m l h n, ih _ _ (TestCases.set_at _ _ _), TestCases.set_set]
      simp [List.flatMap_cons]

theorem visitBody_eq (P : Printer) (name : String) (m : TestCases) (n : Node) :
    visitBody P name m (some n) = some (bodyStep P name m n, true) := by
  unfold visitBody bodyStep
  split <;> simp_all

theorem visitBody_nil (P : Printer) (name : String) (m : TestCases) :
    visitBody P name m none = some (m, true) := rfl

/-- The inner `ast.Inspect` never fails and stores, under `name`, the
concatenation of the test cases of the array-typed literals in pre-order. -/
theorem inspect_visitBody (P : Printer) (name : String) (t : Tree) (m : TestCases)
    (l : List TestCase) (h : m name = some l) :
    inspect (visitBody P name) t m =
      some (m.set name (l ++ (preorder t).flatMap (nodeCases P))) := by
  rw [inspect_eq_foldOpt (visitBody P name) (fun m n => some (bodyStep P name m n))
    (fun s n => by simp [visitBody_eq]) (visitBody_nil P name) t m]
  rw [foldOpt_some, bodyStep_foldl P name _ m l h]

theorem visitDecl_eq (P : Printer) (m : TestCases) (fn : FuncDecl) :
    visitDecl P m (some (.decl (.funcDecl fn))) =
      (collectStep P m fn).map (fun s1 => (s1, true)) := by
  simp only [visitDecl, collectStep]
  split
  · cases hb : fn.Body with
    | none => simp [inspectBody]
    | some b =>
        simp only [inspectBody]
        rw [inspect_visitBody P fn.Name.Name (blockTree b) _ [] (TestCases.set_at _ _ _)]
        simp [TestCases.set_set, bodyCases]
  · rfl

theorem visitDecl_idle (P : Printer) (m : TestCases) (n : Node) (h : n.isFuncDecl = false) :
    visitDecl P m (some n) = some (m, true) := by
  unfold visitDecl
  split
  · next heq =>
      cases heq
      simp [Node.isFuncDecl] at h
  · rfl

/-- The outer walk is a fold over the function declarations of the file. -/
theorem findTestCases_fold (P : Printer) (node : File) :
    findTestCases P node = foldOpt (collectStep P) TestCases.empty (funcDecls node) := by
  unfold findTestCases
  exact inspect_fileTree (visitDecl P) (collectStep P) (fun _ _ => true)
    (visitDecl_idle P) (fun _ => rfl) (visitDecl_eq P) node TestCases.empty

/-! ## findTestCases: the collection -/


theorem lastNamed_cons (k : String) (fn : FuncDecl) (rest : List FuncDecl) :
    lastNamed k (fn :: rest) =
      (lastNamed k rest).or (if fn.Name.Name = k then some fn else none) := by
  simp only [lastNamed, List.reverse_cons, List.find?_append, List.find?_cons, List.find?_nil]
  by_cases h : fn.Name.Name = k <;> simp [h]

theorem lastNamed_append (k : String) (l1 l2 : List FuncDecl) :
    lastNamed k (l1 ++ l2) = (lastNamed k l2).or (lastNamed k l1) := by
  simp only [lastNamed, List.reverse_append, List.find?_append]

theorem lastNamed_some {k : String} {fns : List FuncDecl} {fn : FuncDecl}
    (h : lastNamed k fns = some fn) : fn ∈ fns ∧ fn.Name.Name = k := by
  unfold lastNamed at h
  have h1 := List.mem_of_find?_eq_some h
  have h2 := List.find?_some h
  exact ⟨List.mem_reverse.mp h1, by simpa using h2⟩

theorem lastNamed_none {k : String} {fns : List FuncDecl} :
    lastNamed k fns = none ↔ ∀ fn ∈ fns, fn.Name.Name ≠ k := by
  unfold lastNamed
  simp [List.find?_eq_none]

theorem lastNamed_isSome {k : String} {fns : List FuncDecl} :
    (lastNamed k fns).isSome = true ↔ ∃ fn ∈ fns, fn.Name.Name = k := by
  constructor
  · intro h
    obtain ⟨fn, hfn⟩ := Option.isSome_iff_exists.mp h
    exact ⟨fn, lastNamed_some hfn⟩
  · rintro ⟨fn, hmem, hk⟩
    cases h : lastNamed k fns with
    | some _ => rfl
    | none => exact absurd hk (lastNamed_none.mp h fn hmem)

/-- With no later declaration of the same name, `fn` is the last of its name. -/
theorem lastNamed_split (fn : FuncDecl) (pre post : List FuncDecl)
    (h : ∀ g ∈ post, g.Name.Name ≠ fn.Name.Name) :
    lastNamed fn.Name.Name (pre ++ fn :: post) = some fn := by
  rw [lastNamed_append, lastNamed_cons, lastNamed_none.mpr h]
  simp

theorem lastNamed_pairwise {fns : List FuncDecl}
    (hd : fns.Pairwise (fun a b => a.Name.Name ≠ b.Name.Name)) {fn : FuncDecl} (hmem : fn ∈ fns) :
    lastNamed fn.Name.Name fns = some fn := by
  obtain ⟨pre, post, rfl⟩ := List.append_of_mem hmem
  apply lastNamed_split
  intro g hg
  have := (List.pairwise_append.mp hd).2.1
  exact fun heq => (List.rel_of_pairwise_cons this hg) heq.symm

theorem mem_funcDecls {node : File} {fn : FuncDecl} :
    fn ∈ funcDecls node ↔ Decl.funcDecl fn ∈ node.Decls := by
  simp only [funcDecls, List.mem_filterMap]
  constructor
  · rintro ⟨d, hd, hfn⟩
    cases d <;> simp [Decl.asFuncDecl] at hfn
    subst hfn
    exact hd
  · intro h
    exact ⟨_, h, rfl⟩

theorem mem_testDecls {node : File} {fn : FuncDecl} :
    fn ∈ testDecls node ↔
      Decl.funcDecl fn ∈ node.Decls ∧ stringsHasPrefix fn.Name.Name "Test" = true := by
  simp [testDecls, List.mem_filter, mem_funcDecls]

theorem collected_cons (P : Printer) (fn : FuncDecl) (rest : List FuncDecl) (m : TestCases) :
    collected P rest (m.set fn.Name.Name (declCases P fn)) = collected P (fn :: rest) m := by
  funext k
  simp only [collected, lastNamed_cons]
  cases lastNamed k rest with
  | some g => rfl
  | none =>
      by_cases h : fn.Name.Name = k
      · simp [h, TestCases.set]
      · have h1 : ¬ k = fn.Name.Name := fun e => h e.symm
        simp [h, h1, TestCases.set]

/-- When every `Test` declaration has a body the fold succeeds, with the
collection `collected`. -/
theorem collect_fold (P : Printer) :
    ∀ (fns : List FuncDecl) (m : TestCases),
      (∀ fn ∈ fns, stringsHasPrefix fn.Name.Name "Test" = true → fn.Body ≠ none) →
      foldOpt (collectStep P) m fns =
        some (collected P (fns.filter (fun fn => stringsHasPrefix fn.Name.Name "Test")) m)
  | [], m, _ => by
      simp only [foldOpt, List.filter_nil]
      congr 1
  | fn :: rest, m, h => by
      have hrest : ∀ g ∈ rest, stringsHasPrefix g.Name.Name "Test" = true → g.Body ≠ none :=
        fun g hg => h g (List.mem_cons_of_mem _ hg)
      by_cases hp : stringsHasPrefix fn.Name.Name "Test" = true
      · have hb := h fn (List.mem_cons_self _ _) hp
        cases hbody : fn.Body with
        | none => exact absurd hbody hb
        | some b =>
            simp only [foldOpt, collectStep, hp, if_true, hbody, List.filter_cons]
            rw [collect_fold P rest _ hrest]
            have hc : bodyCases P b = declCases P fn := by simp [declCases, hbody]
            rw [hc, collected_cons]
      · simp only [foldOpt, collectStep, hp, if_false, List.filter_cons]
        exact collect_fold P rest m hrest

/-- The fold fails as soon as a `Test` declaration has no body. -/
theorem collect_bodies (P : Printer) :
    ∀ (fns : List FuncDecl) (m m1 : TestCases), foldOpt (collectStep P) m fns = some m1 →
      ∀ fn ∈ fns, stringsHasPrefix fn.Name.Name "Test" = true → fn.Body ≠ none
  | [], _, _, _ => by simp
  | fn :: rest, m, m1, h => by
      intro g hg hp
      simp only [foldOpt] at h
      cases hs : collectStep P m fn with
      | none => simp [hs] at h
      | some m2 =>
          simp only [hs] at h
          rcases List.mem_cons.mp hg with rfl | hg
          · intro hb
            simp [collectStep, hp, hb] at hs
          · exact collect_bodies P rest m2 m1 h g hg hp

/-- The walk of `findTestCases` returns exactly when every `Test` declaration
has a body, and then each name maps to the test cases of its last declaration. -/
theorem findTestCases_eq (P : Printer) (node : File)
    (h : ∀ fn ∈ testDecls node, fn.Body ≠ none) :
    findTestCases P node = some (collected P (testDecls node) TestCases.empty) := by
  rw [findTestCases_fold]
  exact collect_fold P (funcDecls node) TestCases.empty
    (fun fn hfn hp => h fn (by simp [testDecls, List.mem_filter, hfn, hp]))

theorem findTestCases_bodies (P : Printer) (node : File) (m : TestCases)
    (h : findTestCases P node = some m) : ∀ fn ∈ testDecls node, fn.Body ≠ none := by
  rw [findTestCases_fold] at h
  intro fn hfn
  simp only [testDecls, List.mem_filter] at hfn
  exact collect_bodies P _ _ _ h fn hfn.1 hfn.2

theorem findTestCases_some (P : Printer) (node : File) (m : TestCases)
    (h : findTestCases P node = some m) : m = collected P (testDecls node) TestCases.empty := by
  have := findTestCases_eq P node (findTestCases_bodies P node m h)
  rw [h] at this
  exact Option.some.inj this

/-! ## Claims on the key set -/


theorem nodeCases_of_count (P : Printer) (n : Node) (h : recordCount n = 0) :
    nodeCases P n = [] := by
  unfold recordCount at h
  unfold nodeCases
  split
  · next len elt elts =>
      simp only [List.length_eq_zero, List.filter_eq_nil_iff] at h
      simp only [recordCases, List.filterMap_eq_nil_iff]
      intro e he
      have := h e he
      cases e <;> simp_all [Expr.isCompositeLit]
  · rfl

theorem recordCases_length (P : Printer) (elts : List Expr) :
    (recordCases P elts).length = (elts.filter Expr.isCompositeLit).length := by
  induction elts with
  | nil => rfl
  | cons e es ih =>
      cases e <;> simp_all [recordCases, Expr.isCompositeLit, List.filterMap_cons, List.filter_cons]

theorem nodeCases_length (P : Printer) (n : Node) : (nodeCases P n).length = recordCount n := by
  unfold nodeCases recordCount
  split
  · exact recordCases_length P _
  · rfl

theorem flatMap_nodeCases_length (P : Printer) (ns : List Node) :
    (ns.flatMap (nodeCases P)).length = (ns.map recordCount).sum := by
  induction ns with
  | nil => rfl
  | cons n ns ih => simp [List.flatMap_cons, nodeCases_length, ih]

theorem testDecls_split {node : File} {pre post : List Decl} {fn : FuncDecl}
    (hs : node.Decls = pre ++ Decl.funcDecl fn :: post)
    (hp : stringsHasPrefix fn.Name.Name "Test" = true) :
    testDecls node =
      (pre.filterMap Decl.asFuncDecl).filter (fun g => stringsHasPrefix g.Name.Name "Test") ++
        fn :: (post.filterMap Decl.asFuncDecl).filter
          (fun g => stringsHasPrefix g.Name.Name "Test") := by
  simp [testDecls, funcDecls, hs, List.filterMap_append, List.filterMap_cons, Decl.asFuncDecl,
    List.filter_cons, hp]

theorem mem_asFuncDecl {ds : List Decl} {g : FuncDecl}
    (h : g ∈ ds.filterMap Decl.asFuncDecl) : Decl.funcDecl g ∈ ds := by
  obtain ⟨d, hd, hg⟩ := List.mem_filterMap.mp h
  cases d <;> simp [Decl.asFuncDecl] at hg
  subst hg
  exact hd

/-- A declaration with no later declaration of the same name is the last of
its name among the test declarations. -/
theorem lastNamed_testDecls {node : File} {pre post : List Decl} {fn : FuncDecl}
    (hs : node.Decls = pre ++ Decl.funcDecl fn :: post)
    (hp : stringsHasPrefix fn.Name.Name "Test" = true)
    (hlast : ∀ g, Decl.funcDecl g ∈ post → g.Name.Name ≠ fn.Name.Name) :
    lastNamed fn.Name.Name (testDecls node) = some fn := by
  rw [testDecls_split hs hp]
  apply lastNamed_split
  intro g hg
  exact hlast g (mem_asFuncDecl (List.mem_filter.mp hg).1)

theorem bodies_testDecls {node : File}
    (hb : ∀ fn, Decl.funcDecl fn ∈ node.Decls →
      stringsHasPrefix fn.Name.Name "Test" = true → fn.Body ≠ none) :
    ∀ fn ∈ testDecls node, fn.Body ≠ none :=
  fun fn hfn => hb fn (mem_testDecls.mp hfn).1 (mem_testDecls.mp hfn).2

/-- C1 (as amended): when every `Test` declaration has a body, `findTestCases`
returns a collection whose key set is exactly the set of names of function
declarations that start with `Test`; and a `Test` function without any
composite-literal element of an array-typed literal in its body, that no later
declaration of the same name follows, is mapped to the empty sequence. -/
theorem findTestCases_keys (P : Printer) (node : File)
    (hb : ∀ fn, Decl.funcDecl fn ∈ node.Decls →
      stringsHasPrefix fn.Name.Name "Test" = true → fn.Body ≠ none) :
    ∃ m, findTestCases P node = some m ∧
      (∀ k, (m k).isSome = true ↔
        ∃ fn, Decl.funcDecl fn ∈ node.Decls ∧ fn.Name.Name = k ∧
          stringsHasPrefix k "Test" = true) ∧
      (∀ pre fn post body, node.Decls = pre ++ Decl.funcDecl fn :: post →
        stringsHasPrefix fn.Name.Name "Test" = true →
        (∀ g, Decl.funcDecl g ∈ post → g.Name.Name ≠ fn.Name.Name) →
        fn.Body = some body →
        (∀ n ∈ preorder (blockTree body), recordCount n = 0) →
        m fn.Name.Name = some []) := by
  refine ⟨_, findTestCases_eq P node (bodies_testDecls hb), ?_, ?_⟩
  · intro k
    have hiff : (collected P (testDecls node) TestCases.empty k).isSome = true ↔
        (lastNamed k (testDecls node)).isSome = true := by
      simp only [collected]
      cases lastNamed k (testDecls node) <;> simp [TestCases.empty]
    rw [hiff, lastNamed_isSome]
    constructor
    · rintro ⟨fn, hfn, hk⟩
      have := mem_testDecls.mp hfn
      exact ⟨fn, this.1, hk, hk ▸ this.2⟩
    · rintro ⟨fn, hfn, hk, hp⟩
      exact ⟨fn, mem_testDecls.mpr ⟨hfn, hk ▸ hp⟩, hk⟩
  · intro pre fn post body hs hp hlast hbody hnone
    simp only [collected, lastNamed_testDecls hs hp hlast, declCases, hbody, bodyCases]
    congr 1
    rw [List.flatMap_eq_nil_iff]
    exact fun n hn => nodeCases_of_count P n (hnone n hn)

theorem oneRowFile_bodies : ∀ fn, Decl.funcDecl fn ∈ oneRowFile.Decls →
    stringsHasPrefix fn.Name.Name "Test" = true → fn.Body ≠ none := by
  intro fn hfn _
  simp only [oneRowFile, testFile, List.map_cons, List.map_nil, List.mem_singleton,
    Decl.funcDecl.injEq] at hfn
  subst hfn
  simp [testFunc]

/-- C1, witness: the one-row file. -/
theorem findTestCases_keys_witness :
    ∃ m, findTestCases demoPrinter oneRowFile = some m ∧
      (∀ k, (m k).isSome = true ↔
        ∃ fn, Decl.funcDecl fn ∈ oneRowFile.Decls ∧ fn.Name.Name = k ∧
          stringsHasPrefix k "Test" = true) ∧
      (∀ pre fn post body, oneRowFile.Decls = pre ++ Decl.funcDecl fn :: post →
        stringsHasPrefix fn.Name.Name "Test" = true →
        (∀ g, Decl.funcDecl g ∈ post → g.Name.Name ≠ fn.Name.Name) →
        fn.Body = some body →
        (∀ n ∈ preorder (blockTree body), recordCount n = 0) →
        m fn.Name.Name = some []) :=
  findTestCases_keys demoPrinter oneRowFile oneRowFile_bodies

/-- C1, counterexample: `TestX` is declared twice; the first declaration has an
empty body, yet the entry for `TestX` is not the empty sequence. -/
theorem findTestCases_empty_entry_counterexample :
    dupFile.Decls = [.funcDecl dupFirst, .funcDecl dupSecond] ∧
    stringsHasPrefix dupFirst.Name.Name "Test" = true ∧
    dupFirst.Body = some (.mk []) ∧
    (∀ n ∈ preorder (blockTree (.mk [])), recordCount n = 0) ∧
    (findTestCases demoPrinter dupFile).map (fun m => m dupFirst.Name.Name) =
      some (some [⟨"x", "lit/1", ""⟩]) := by
  refine ⟨rfl, by decide, rfl, by decide, by decide⟩

/-! ## Claims on names and shapes -/


/-- C2, the code at the failing inputs: for the literal `"say \"hi\""` the
extracted name loses the escaped quote that ends the content, and for the raw
literal the back quotes stay in the name; removing exactly the two delimiters
gives other texts. -/
theorem name_trim_quoteFile :
    (findTestCases demoPrinter quoteFile).map (fun m => m "TestQuote") =
      some (some [⟨"say \\\"hi\\", "lit/1", ""⟩, ⟨"`raw`", "lit/1", ""⟩]) ∧
    unquoted escapedLit.Value = "say \\\"hi\\\"" ∧ unquoted rawLit.Value = "raw" := by
  refine ⟨by decide, by decide, by decide⟩

theorem nameStep_skip (tc : TestCase) (e : Expr) (h : isNamePair e = false) :
    nameStep tc e = tc := by
  unfold nameStep
  split
  · next key value =>
      split
      · next k =>
          split
          · next hk =>
              split
              · next v =>
                  split
                  · next hv => simp [isNamePair, hk, hv] at h
                  · rfl
              · rfl
          · rfl
      · rfl
  · rfl

theorem nameStep_foldl_skip (es : List Expr) (h : ∀ e ∈ es, isNamePair e = false) :
    ∀ tc : TestCase, es.foldl nameStep tc = tc := by
  induction es with
  | nil => intro tc; rfl
  | cons e es ih =>
      intro tc
      simp only [List.foldl_cons]
      rw [nameStep_skip tc e (h e (List.mem_cons_self _ _))]
      exact ih (fun e1 he1 => h e1 (List.mem_cons_of_mem _ he1)) tc

theorem mem_recordCases (P : Printer) {elts : List Expr} {typ : Option Expr} {es : List Expr}
    (h : Expr.compositeLit typ es ∈ elts) :
    mkTestCase P (.compositeLit typ es) es ∈ recordCases P elts := by
  simp only [recordCases, List.mem_filterMap]
  exact ⟨_, h, rfl⟩

theorem mem_bodyCases (P : Printer) {body : BlockStmt} {len : Option Expr} {elt : Expr}
    {elts : List Expr} {typ : Option Expr} {es : List Expr}
    (hnode : Node.expr (.compositeLit (some (.arrayType len elt)) elts) ∈
      preorder (blockTree body))
    (hrec : Expr.compositeLit typ es ∈ elts) :
    mkTestCase P (.compositeLit typ es) es ∈ bodyCases P body := by
  simp only [bodyCases, List.mem_flatMap]
  exact ⟨_, hnode, mem_recordCases P hrec⟩

/-- C3 (as amended): a record element of an array-typed composite literal in
the body of a function, without a pair `name: <string literal>`, gets a test
case with the empty name.  The walk of the body appends it without failing,
and when the file is such that `findTestCases` returns (every `Test`
declaration has a body) and no later declaration has the same name, the
returned collection has it under the function's name. -/
theorem nameless_record_case (P : Printer) (fn : FuncDecl) (body : BlockStmt)
    (hbody : fn.Body = some body) (len : Option Expr) (elt : Expr) (elts : List Expr)
    (typ : Option Expr) (es : List Expr)
    (hnode : Node.expr (.compositeLit (some (.arrayType len elt)) elts) ∈
      preorder (blockTree body))
    (hrec : Expr.compositeLit typ es ∈ elts)
    (hno : ∀ e ∈ es, isNamePair e = false) :
    (∀ m : TestCases, ∃ m1 cases,
      inspectBody (visitBody P fn.Name.Name) fn.Body (m.set fn.Name.Name []) = some m1 ∧
      m1 fn.Name.Name = some cases ∧
      ({ Name := "", Str := P (.expr (.compositeLit typ es)), TestedFunction := "" } : TestCase)
        ∈ cases) ∧
    (∀ (node : File) (pre post : List Decl),
      node.Decls = pre ++ Decl.funcDecl fn :: post →
      stringsHasPrefix fn.Name.Name "Test" = true →
      (∀ g, Decl.funcDecl g ∈ post → g.Name.Name ≠ fn.Name.Name) →
      (∀ g, Decl.funcDecl g ∈ node.Decls →
        stringsHasPrefix g.Name.Name "Test" = true → g.Body ≠ none) →
      ∃ m cases, findTestCases P node = some m ∧ m fn.Name.Name = some cases ∧
        ({ Name := "", Str := P (.expr (.compositeLit typ es)), TestedFunction := "" } : TestCase)
          ∈ cases) := by
  have htc : mkTestCase P (.compositeLit typ es) es =
      { Name := "", Str := P (.expr (.compositeLit typ es)), TestedFunction := "" } := by
    simp [mkTestCase, nameStep_foldl_skip es hno]
  have hmem := mem_bodyCases P hnode hrec
  rw [htc] at hmem
  constructor
  · intro m
    have hins : inspectBody (visitBody P fn.Name.Name) fn.Body (m.set fn.Name.Name []) =
        some ((m.set fn.Name.Name []).set fn.Name.Name (bodyCases P body)) := by
      simp only [hbody, inspectBody]
      rw [inspect_visitBody P fn.Name.Name (blockTree body) _ [] (TestCases.set_at _ _ _)]
      rfl
    exact ⟨_, _, hins, TestCases.set_at _ _ _, hmem⟩
  · intro node pre post hs hp hlast hb
    refine ⟨_, bodyCases P body, findTestCases_eq P node (bodies_testDecls hb), ?_, hmem⟩
    simp only [collected, lastNamed_testDecls hs hp hlast, declCases, hbody]

/-- C3, witness: the row `2, Name: "x", name: 7` has positional fields, a key
`Name` and a `name` that is not a string literal. -/
theorem nameless_record_case_witness :
    (∀ m : TestCases, ∃ m1 cases,
      inspectBody (visitBody demoPrinter namelessFunc.Name.Name) namelessFunc.Body
        (m.set namelessFunc.Name.Name []) = some m1 ∧
      m1 namelessFunc.Name.Name = some cases ∧
      ({ Name := "", Str := demoPrinter (.expr (.compositeLit none namelessFields)),
         TestedFunction := "" } : TestCase) ∈ cases) ∧
    (∀ (node : File) (pre post : List Decl),
      node.Decls = pre ++ Decl.funcDecl namelessFunc :: post →
      stringsHasPrefix namelessFunc.Name.Name "Test" = true →
      (∀ g, Decl.funcDecl g ∈ post → g.Name.Name ≠ namelessFunc.Name.Name) →
      (∀ g, Decl.funcDecl g ∈ node.Decls →
        stringsHasPrefix g.Name.Name "Test" = true → g.Body ≠ none) →
      ∃ m cases, findTestCases demoPrinter node = some m ∧
        m namelessFunc.Name.Name = some cases ∧
        ({ Name := "", Str := demoPrinter (.expr (.compositeLit none namelessFields)),
           TestedFunction := "" } : TestCase) ∈ cases) :=
  nameless_record_case demoPrinter namelessFunc
    (.mk [defineTests (tableOf [record namelessFields])]) rfl
    none (.ident ⟨"testRow"⟩) [record namelessFields] none namelessFields
    (by simp [blockTree, stmtsTree, stmtTree, defineTests, tableOf, sliceOf, exprsTree, exprTree,
          optExprTree, preorder, preorderList, record])
    (by simp [record])
    (by decide)

/-- C3, counterexample: `TestPos` is declared twice; the row without a name is
in the first declaration, an array-typed literal of its body holds it, and the
collection `findTestCases` returns has no test case for it: the entry of
`TestPos` is the empty sequence of the second declaration. -/
theorem nameless_record_case_counterexample :
    namelessDupFile.Decls = [.funcDecl namelessFirst, .funcDecl namelessSecond] ∧
    stringsHasPrefix namelessFirst.Name.Name "Test" = true ∧
    namelessFirst.Body = some (.mk [defineTests (tableOf [record namelessFields])]) ∧
    Node.expr (tableOf [record namelessFields]) ∈
      preorder (blockTree (.mk [defineTests (tableOf [record namelessFields])])) ∧
    (∀ e ∈ namelessFields, isNamePair e = false) ∧
    (findTestCases demoPrinter namelessDupFile).map (fun m => m namelessFirst.Name.Name) =
      some (some []) := by
  refine ⟨rfl, by decide, rfl, ?_, by decide, by decide⟩
  simp [blockTree, stmtsTree, stmtTree, defineTests, tableOf, sliceOf, exprsTree, exprTree,
    optExprTree, preorder, preorderList, record]

/-- C4, the code at the failing input: the literal `[][]int` with the
elements `1` and `2` in braces has element type `[]int`, not a record type,
and still yields two test cases. -/
theorem gridFile_cases :
    (findTestCases demoPrinter gridFile).map (fun m => m "TestGrid") =
      some (some [⟨"", "lit/1", ""⟩, ⟨"", "lit/1", ""⟩]) := by
  decide

/-- C5: in a file whose `Test` declarations have pairwise distinct names (and
bodies, so that `findTestCases` returns), the sequence stored for a test
function is the concatenation, over the array-typed composite literals of its
body in depth-first pre-order, of one test case per composite-literal element
in element order; its length is the total number of such elements. -/
theorem findTestCases_concat (P : Printer) (node : File)
    (hd : (testDecls node).Pairwise (fun a b => a.Name.Name ≠ b.Name.Name))
    (hb : ∀ fn, Decl.funcDecl fn ∈ node.Decls →
      stringsHasPrefix fn.Name.Name "Test" = true → fn.Body ≠ none) :
    ∃ m, findTestCases P node = some m ∧
      ∀ fn body, Decl.funcDecl fn ∈ node.Decls →
        stringsHasPrefix fn.Name.Name "Test" = true → fn.Body = some body →
        m fn.Name.Name = some ((preorder (blockTree body)).flatMap (nodeCases P)) ∧
        ((preorder (blockTree body)).flatMap (nodeCases P)).length =
          ((preorder (blockTree body)).map recordCount).sum := by
  refine ⟨_, findTestCases_eq P node (bodies_testDecls hb), ?_⟩
  intro fn body hfn hp hbody
  refine ⟨?_, flatMap_nodeCases_length P _⟩
  simp only [collected, lastNamed_pairwise hd (mem_testDecls.mpr ⟨hfn, hp⟩), declCases, hbody,
    bodyCases]

/-- C5, witness: the one-row file. -/
theorem findTestCases_concat_witness :
    ∃ m, findTestCases demoPrinter oneRowFile = some m ∧
      ∀ fn body, Decl.funcDecl fn ∈ oneRowFile.Decls →
        stringsHasPrefix fn.Name.Name "Test" = true → fn.Body = some body →
        m fn.Name.Name = some ((preorder (blockTree body)).flatMap (nodeCases demoPrinter)) ∧
        ((preorder (blockTree body)).flatMap (nodeCases demoPrinter)).length =
          ((preorder (blockTree body)).map recordCount).sum :=
  findTestCases_concat demoPrinter oneRowFile
    (by
      have h : testDecls oneRowFile = [testFunc "TestAdd" [defineTests (tableOf
          [record [namePair "positive", .keyValueExpr (.ident ⟨"a"⟩) (intLit "2")]])]] := rfl
      rw [h]
      exact List.pairwise_singleton _ _)
    oneRowFile_bodies

/-! ## Children of array-typed literals -/


theorem okList_nil : okList [] := trivial
theorem okList_cons {t ts} : okList (t :: ts) ↔ okTree t ∧ okList ts := by
  simp [okList]
theorem okList_append {l1 l2} : okList (l1 ++ l2) ↔ okList l1 ∧ okList l2 := by
  induction l1 with
  | nil => simp [okList_nil]
  | cons t ts ih => simp [okList_cons, ih, and_assoc]
theorem okTree_node {n kids} : okTree (.node n kids) ↔ KidsOK n kids ∧ okList kids := by
  simp [okTree]
theorem okTree_leaf (n : Node) (h : n.isArrayLit = false) (kids : List Tree) :
    KidsOK n kids := by
  intro len elt elts hn
  subst hn
  simp [Node.isArrayLit] at h
theorem okList_idents (names : List Ident) : okList (names.map identTree) := by
  induction names with
  | nil => exact okList_nil
  | cons a as ih =>
      simp [okList_cons, ih, identTree, okTree_node, KidsOK, okList_nil]
theorem okTree_ident (id : Ident) : okTree (identTree id) := by
  simp [identTree, okTree_node, KidsOK, okList_nil]
theorem okTree_basicLit (lit : BasicLit) : okTree (basicLitTree lit) := by
  simp [basicLitTree, okTree_node, KidsOK, okList_nil]
theorem okList_optIdent (o : Option Ident) : okList (optIdentTree o) := by
  cases o <;> simp [optIdentTree, okList_cons, okList_nil, okTree_ident]
theorem okList_optBasicLit (o : Option BasicLit) : okList (optBasicLitTree o) := by
  cases o <;> simp [optBasicLitTree, okList_cons, okList_nil, okTree_basicLit]

theorem rootRecord_funcType (ft : FuncType) : rootRecord (funcTypeTree ft) = [] := by
  cases ft; rfl
theorem rootRecord_call (c : CallExpr) : rootRecord (callTree c) = [] := by
  cases c; rfl

theorem rootRecord_expr (e : Expr) :
    rootRecord (exprTree e) = if e.isCompositeLit then [e] else [] := by
  cases e <;> simp only [exprTree, rootRecord_funcType, rootRecord_call] <;>
    simp [rootRecord, Expr.isCompositeLit]

theorem rootRecord_exprs (es : List Expr) :
    (exprsTree es).flatMap rootRecord = es.filter Expr.isCompositeLit := by
  induction es with
  | nil => rfl
  | cons e es ih =>
      simp only [exprsTree, List.flatMap_cons, ih, rootRecord_expr, List.filter_cons]
      cases e.isCompositeLit <;> simp

theorem kidsOK_compositeLit (typ : Option Expr) (elts : List Expr) :
    KidsOK (.expr (.compositeLit typ elts)) (optExprTree typ ++ exprsTree elts) := by
  intro len elt elts1 hn
  injection hn with hn
  injection hn with h1 h2
  subst h1 h2
  simp [optExprTree, rootRecord_exprs, rootRecord_expr, Expr.isCompositeLit]

mutual
theorem okTree_expr : ∀ e : Expr, okTree (exprTree e)
  | .badExpr => by simp [exprTree, okTree_node, KidsOK, okList_nil]
  | .ident id => by simp [exprTree, okTree_node, KidsOK, okList_nil]
  | .ellipsis elt => by simp [exprTree, okTree_node, KidsOK, okList_optExpr elt]
  | .basicLit lit => by simp [exprTree, okTree_node, KidsOK, okList_nil]
  | .funcLit typ body => by
      simp [exprTree, okTree_node, KidsOK, okList_cons, okList_nil, okTree_funcType typ, okTree_block body]
  | .compositeLit typ elts => by
      simp only [exprTree, okTree_node, okList_append]
      exact ⟨kidsOK_compositeLit typ elts, okList_optExpr typ, okList_exprs elts⟩
  | .parenExpr x => by simp [exprTree, okTree_node, KidsOK, okList_cons, okList_nil, okTree_expr x]
  | .selectorExpr x sel => by
      simp [exprTree, okTree_node, KidsOK, okList_cons, okList_nil, okTree_expr x, identTree]
  | .indexExpr x index => by
      simp [exprTree, okTree_node, KidsOK, okList_cons, okList_nil, okTree_expr x, okTree_expr index]
  | .indexListExpr x indices => by
      simp [exprTree, okTree_node, KidsOK, okList_cons, okTree_expr x, okList_exprs indices]
  | .sliceExpr x low high max => by
      simp [exprTree, okTree_node, KidsOK, okList_cons, okList_append, okTree_expr x,
        okList_optExpr low, okList_optExpr high, okList_optExpr max]
  | .typeAssertExpr x typ => by
      simp [exprTree, okTree_node, KidsOK, okList_cons, okTree_expr x, okList_optExpr typ]
  | .callExpr call => by simp [exprTree, okTree_call call]
  | .starExpr x => by simp [exprTree, okTree_node, KidsOK, okList_cons, okList_nil, okTree_expr x]
  | .unaryExpr op x => by simp [exprTree, okTree_node, KidsOK, okList_cons, okList_nil, okTree_expr x]
  | .binaryExpr x op y => by
      simp [exprTree, okTree_node, KidsOK, okList_cons, okList_nil, okTree_expr x, okTree_expr y]
  | .keyValueExpr key value => by
      simp [exprTree, okTree_node, KidsOK, okList_cons, okList_nil, okTree_expr key, okTree_expr value]
  | .arrayType len elt => by
      simp [exprTree, okTree_node, KidsOK, okList_cons, okList_append, okList_nil, okList_optExpr len, okTree_expr elt]
  | .structType fields => by
      simp [exprTree, okTree_node, KidsOK, okList_cons, okList_nil, okTree_fieldList fields]
  | .funcType ft => by simp [exprTree, okTree_funcType ft]
  | .interfaceType methods => by
      simp [exprTree, okTree_node, KidsOK, okList_cons, okList_nil, okTree_fieldList methods]
  | .mapType key value => by
      simp [exprTree, okTree_node, KidsOK, okList_cons, okList_nil, okTree_expr key, okTree_expr value]
  | .chanType dir value => by
      simp [exprTree, okTree_node, KidsOK, okList_cons, okList_nil, okTree_expr value]
theorem okList_optExpr : ∀ o : Option Expr, okList (optExprTree o)
  | none => by simp [optExprTree, okList_nil]
  | some e => by simp [optExprTree, okList_cons, okList_nil, okTree_expr e]
theorem okList_exprs : ∀ es : List Expr, okList (exprsTree es)
  | [] => by simp [exprsTree, okList_nil]
  | e :: es => by simp [exprsTree, okList_cons, okTree_expr e, okList_exprs es]
theorem okTree_call : ∀ c : CallExpr, okTree (callTree c)
  | .mk fn args => by
      simp [callTree, okTree_node, KidsOK, okList_cons, okTree_expr fn, okList_exprs args]
theorem okTree_funcType : ∀ t : FuncType, okTree (funcTypeTree t)
  | .mk typeParams params results => by
      simp [funcTypeTree, okTree_node, KidsOK, okList_append, okList_optFieldList typeParams,
        okList_optFieldList params, okList_optFieldList results]
theorem okTree_fieldList : ∀ l : FieldList, okTree (fieldListTree l)
  | .mk list => by simp [fieldListTree, okTree_node, KidsOK, okList_fields list]
theorem okList_optFieldList : ∀ o : Option FieldList, okList (optFieldListTree o)
  | none => by simp [optFieldListTree, okList_nil]
  | some l => by simp [optFieldListTree, okList_cons, okList_nil, okTree_fieldList l]
theorem okList_fields : ∀ fs : List Field, okList (fieldsTree fs)
  | [] => by simp [fieldsTree, okList_nil]
  | f :: fs => by simp [fieldsTree, okList_cons, okTree_field f, okList_fields fs]
theorem okTree_field : ∀ f : Field, okTree (fieldTree f)
  | .mk names typ tag => by
      simp [fieldTree, okTree_node, KidsOK, okList_append, okList_idents, okList_optExpr typ,
        okList_optBasicLit]
theorem okTree_stmt : ∀ s : Stmt, okTree (stmtTree s)
  | .badStmt => by simp [stmtTree, okTree_node, KidsOK, okList_nil]
  | .declStmt decl => by
      simp [stmtTree, okTree_node, KidsOK, okList_cons, okList_nil, okTree_genDecl decl]
  | .emptyStmt => by simp [stmtTree, okTree_node, KidsOK, okList_nil]
  | .labeledStmt label stmt => by
      simp [stmtTree, okTree_node, KidsOK, okList_cons, okList_nil, identTree, okTree_stmt stmt]
  | .exprStmt x => by simp [stmtTree, okTree_node, KidsOK, okList_cons, okList_nil, okTree_expr x]
  | .sendStmt chan value => by
      simp [stmtTree, okTree_node, KidsOK, okList_cons, okList_nil, okTree_expr chan, okTree_expr value]
  | .incDecStmt x tok => by simp [stmtTree, okTree_node, KidsOK, okList_cons, okList_nil, okTree_expr x]
  | .assignStmt lhs tok rhs => by
      simp [stmtTree, okTree_node, KidsOK, okList_append, okList_exprs lhs, okList_exprs rhs]
  | .goStmt call => by simp [stmtTree, okTree_node, KidsOK, okList_cons, okList_nil, okTree_call call]
  | .deferStmt call => by simp [stmtTree, okTree_node, KidsOK, okList_cons, okList_nil, okTree_call call]
  | .returnStmt results => by simp [stmtTree, okTree_node, KidsOK, okList_exprs results]
  | .branchStmt tok label => by simp [stmtTree, okTree_node, KidsOK, okList_optIdent]
  | .blockStmt block => by simp [stmtTree, okTree_block block]
  | .ifStmt init cond body els => by
      simp [stmtTree, okTree_node, KidsOK, okList_append, okList_cons, okList_nil,
        okList_optStmt init, okTree_expr cond, okTree_block body, okList_optStmt els]
  | .caseClause list body => by
      simp [stmtTree, okTree_node, KidsOK, okList_append, okList_exprs list, okList_stmts body]
  | .switchStmt init tag body => by
      simp [stmtTree, okTree_node, KidsOK, okList_append, okList_cons, okList_nil,
        okList_optStmt init, okList_optExpr tag, okTree_block body]
  | .typeSwitchStmt init assign body => by
      simp [stmtTree, okTree_node, KidsOK, okList_append, okList_cons, okList_nil,
        okList_optStmt init, okTree_stmt assign, okTree_block body]
  | .commClause comm body => by
      simp [stmtTree, okTree_node, KidsOK, okList_append, okList_optStmt comm, okList_stmts body]
  | .selectStmt body => by
      simp [stmtTree, okTree_node, KidsOK, okList_cons, okList_nil, okTree_block body]
  | .forStmt init cond post body => by
      simp [stmtTree, okTree_node, KidsOK, okList_append, okList_cons, okList_nil,
        okList_optStmt init, okList_optExpr cond, okList_optStmt post, okTree_block body]
  | .rangeStmt key value tok x body => by
      simp [stmtTree, okTree_node, KidsOK, okList_append, okList_cons, okList_nil,
        okList_optExpr key, okList_optExpr value, okTree_expr x, okTree_block body]
theorem okList_optStmt : ∀ o : Option Stmt, okList (optStmtTree o)
  | none => by simp [optStmtTree, okList_nil]
  | some s => by simp [optStmtTree, okList_cons, okList_nil, okTree_stmt s]
theorem okList_stmts : ∀ ss : List Stmt, okList (stmtsTree ss)
  | [] => by simp [stmtsTree, okList_nil]
  | s :: ss => by simp [stmtsTree, okList_cons, okTree_stmt s, okList_stmts ss]
theorem okTree_block : ∀ b : BlockStmt, okTree (blockTree b)
  | .mk list => by simp [blockTree, okTree_node, KidsOK, okList_stmts list]
theorem okTree_spec : ∀ s : Spec, okTree (specTree s)
  | .importSpec name path => by
      simp [specTree, okTree_node, KidsOK, okList_append, okList_cons, okList_nil,
        okList_optIdent, basicLitTree]
  | .valueSpec names typ values => by
      simp [specTree, okTree_node, KidsOK, okList_append, okList_idents, okList_optExpr typ,
        okList_exprs values]
  | .typeSpec name typeParams typ => by
      simp [specTree, okTree_node, KidsOK, okList_append, okList_cons, okList_nil, identTree,
        okList_optFieldList typeParams, okTree_expr typ]
theorem okList_specs : ∀ ss : List Spec, okList (specsTree ss)
  | [] => by simp [specsTree, okList_nil]
  | s :: ss => by simp [specsTree, okList_cons, okTree_spec s, okList_specs ss]
theorem okTree_genDecl : ∀ d : GenDecl, okTree (genDeclTree d)
  | .mk tok specs => by simp [genDeclTree, okTree_node, KidsOK, okList_specs specs]
end

/-! ## Source order -/


theorem nodeCases_not_array (P : Printer) (n : Node) (h : n.isArrayLit = false) :
    nodeCases P n = [] := by
  unfold nodeCases
  split
  · simp [Node.isArrayLit] at h
  · rfl

theorem flatMap_nodeCases_noArr (P : Printer) (ns : List Node)
    (h : ns.all (fun k => !k.isArrayLit) = true) : ns.flatMap (nodeCases P) = [] := by
  rw [List.flatMap_eq_nil_iff]
  intro n hn
  have := List.all_eq_true.mp h n hn
  exact nodeCases_not_array P n (by simpa using this)

mutual
theorem recordsInOrder_noArr :
    ∀ t : Tree, (preorder t).all (fun k => !k.isArrayLit) = true → recordsInOrder t = []
  | .node n kids, h => by
      simp only [preorder, List.all_cons, Bool.and_eq_true, Bool.not_eq_true',
        ] at h
      simp only [recordsInOrder, h.1]
      exact recordsOfKids_noArr kids h.2
theorem recordsOfKids_noArr :
    ∀ ts : List Tree, (preorderList ts).all (fun k => !k.isArrayLit) = true →
      recordsOfKids ts = []
  | [], _ => rfl
  | t :: ts, h => by
      simp only [preorderList, List.all_append, Bool.and_eq_true] at h
      simp only [recordsOfKids, recordsInOrder_noArr t h.1, recordsOfKids_noArr ts h.2,
        List.append_nil]
end

theorem recordsOfElts_noArr :
    ∀ ts : List Tree, (preorderList ts).all (fun k => !k.isArrayLit) = true →
      recordsOfElts ts = ts.flatMap rootRecord
  | [], _ => rfl
  | t :: ts, h => by
      simp only [preorderList, List.all_append, Bool.and_eq_true] at h
      simp only [recordsOfElts, recordsInOrder_noArr t h.1, recordsOfElts_noArr ts h.2,
        List.append_nil, List.flatMap_cons]

theorem recordCases_eq (P : Printer) (elts : List Expr) :
    recordCases P elts = (elts.filter Expr.isCompositeLit).map (recordCase P) := by
  induction elts with
  | nil => rfl
  | cons e es ih =>
      cases e <;>
        simp_all [recordCases, Expr.isCompositeLit, List.filterMap_cons, List.filter_cons,
          recordCase]

mutual
/-- Without nested tables, visiting order and source order of the records
agree. -/
theorem source_order_tree (P : Printer) :
    ∀ t : Tree, okTree t → flatTables t = true →
      (preorder t).flatMap (nodeCases P) = (recordsInOrder t).map (recordCase P)
  | .node n kids, hok, hflat => by
      rw [okTree_node] at hok
      simp only [flatTables] at hflat
      simp only [preorder, List.flatMap_cons, recordsInOrder]
      by_cases hn : n.isArrayLit = true
      · simp only [hn, if_true] at hflat ⊢
        rw [flatMap_nodeCases_noArr P _ hflat, recordsOfElts_noArr kids hflat, List.append_nil]
        unfold Node.isArrayLit at hn
        split at hn
        · next len elt elts =>
            rw [hok.1 len elt elts rfl]
            simp only [nodeCases]
            exact recordCases_eq P elts
        · exact absurd hn (by simp)
      · simp only [hn] at hflat ⊢
        rw [nodeCases_not_array P n (by simpa using hn), List.nil_append]
        exact source_order_list P kids hok.2 hflat
theorem source_order_list (P : Printer) :
    ∀ ts : List Tree, okList ts → flatTablesList ts = true →
      (preorderList ts).flatMap (nodeCases P) = (recordsOfKids ts).map (recordCase P)
  | [], _, _ => rfl
  | t :: ts, hok, hflat => by
      rw [okList_cons] at hok
      simp only [flatTablesList, Bool.and_eq_true] at hflat
      simp only [preorderList, List.flatMap_append, recordsOfKids, List.map_append]
      rw [source_order_tree P t hok.1 hflat.1, source_order_list P ts hok.2 hflat.2]
end

/-- C6 (as amended): in a file whose `Test` declarations have pairwise
distinct names and bodies, the test cases of a test function are grouped by
array-typed composite literal, the literals in the order a pre-order walk
visits them and the rows of one literal in element order; when the body has no
array-typed composite literal inside another one, this is source order: the
sequence is the list of the record literals in the order a pre-order walk of
the body reaches them. -/
theorem findTestCases_source_order (P : Printer) (node : File)
    (hd : (testDecls node).Pairwise (fun a b => a.Name.Name ≠ b.Name.Name))
    (hb : ∀ fn, Decl.funcDecl fn ∈ node.Decls →
      stringsHasPrefix fn.Name.Name "Test" = true → fn.Body ≠ none) :
    ∃ m, findTestCases P node = some m ∧
      ∀ fn body, Decl.funcDecl fn ∈ node.Decls →
        stringsHasPrefix fn.Name.Name "Test" = true → fn.Body = some body →
        m fn.Name.Name = some ((preorder (blockTree body)).flatMap (nodeCases P)) ∧
        (flatTables (blockTree body) = true →
          m fn.Name.Name = some ((recordsInOrder (blockTree body)).map (recordCase P))) := by
  refine ⟨_, findTestCases_eq P node (bodies_testDecls hb), ?_⟩
  intro fn body hfn hp hbody
  have hm : collected P (testDecls node) TestCases.empty fn.Name.Name =
      some ((preorder (blockTree body)).flatMap (nodeCases P)) := by
    simp only [collected, lastNamed_pairwise hd (mem_testDecls.mpr ⟨hfn, hp⟩), declCases, hbody,
      bodyCases]
  refine ⟨hm, fun hflat => ?_⟩
  rw [hm, source_order_tree P (blockTree body) (okTree_block body) hflat]

theorem oneRowFile_distinct :
    (testDecls oneRowFile).Pairwise (fun a b => a.Name.Name ≠ b.Name.Name) := by
  have h : testDecls oneRowFile = [testFunc "TestAdd" [defineTests (tableOf
      [record [namePair "positive", .keyValueExpr (.ident ⟨"a"⟩) (intLit "2")]])]] := rfl
  rw [h]
  exact List.pairwise_singleton _ _

/-- C6, witness: the one-row file. -/
theorem findTestCases_source_order_witness :
    ∃ m, findTestCases demoPrinter oneRowFile = some m ∧
      ∀ fn body, Decl.funcDecl fn ∈ oneRowFile.Decls →
        stringsHasPrefix fn.Name.Name "Test" = true → fn.Body = some body →
        m fn.Name.Name =
          some ((preorder (blockTree body)).flatMap (nodeCases demoPrinter)) ∧
        (flatTables (blockTree body) = true →
          m fn.Name.Name =
            some ((recordsInOrder (blockTree body)).map (recordCase demoPrinter))) :=
  findTestCases_source_order demoPrinter oneRowFile oneRowFile_distinct oneRowFile_bodies

/-- C6, counterexample: with a table nested inside the first row of another,
the record `a1` starts before the record `b` in the source, yet its test case
comes after the test case of `b`. -/
theorem source_order_counterexample :
    (findTestCases demoPrinter nestedFile).map (fun m => m "TestNested") =
      some (some [⟨"a", "lit/2", ""⟩, ⟨"b", "lit/1", ""⟩, ⟨"a1", "lit/1", ""⟩]) ∧
    (recordsInOrder (blockTree nestedBody)).map (recordCase demoPrinter) =
      [⟨"a", "lit/2", ""⟩, ⟨"a1", "lit/1", ""⟩, ⟨"b", "lit/1", ""⟩] ∧
    (findTestCases demoPrinter nestedFile).map (fun m => m "TestNested") ≠
      some (some ((recordsInOrder (blockTree nestedBody)).map (recordCase demoPrinter))) := by
  refine ⟨by decide, by decide, by decide⟩

/-! ## findTestedFunctionName: the closure -/


/-- Inversion of one step of `ast.Inspect`. -/
theorem inspect_node_some {σ : Type} (f : σ → Option Node → Option (σ × Bool))
    (n : Node) (kids : List Tree) (s r : σ) :
    inspect f (.node n kids) s = some r ↔
      ∃ s1 b, f s (some n) = some (s1, b) ∧
        ((b = false ∧ r = s1) ∨
          (b = true ∧ ∃ s2, inspectList f kids s1 = some s2 ∧ ∃ b3, f s2 none = some (r, b3))) := by
  simp only [inspect]
  cases h : f s (some n) with
  | none => simp
  | some p =>
      obtain ⟨s1, b⟩ := p
      cases b with
      | false =>
          simp only [Option.some.injEq, Prod.mk.injEq]
          constructor
          · intro e
            exact ⟨s1, false, ⟨rfl, rfl⟩, Or.inl ⟨rfl, e.symm⟩⟩
          · rintro ⟨s1', b', ⟨rfl, rfl⟩, h1 | h1⟩
            · exact h1.2.symm
            · exact absurd h1.1 (by simp)
      | true =>
          simp only [Option.some.injEq, Prod.mk.injEq]
          constructor
          · intro e
            refine ⟨s1, true, ⟨rfl, rfl⟩, Or.inr ⟨rfl, ?_⟩⟩
            cases h2 : inspectList f kids s1 with
            | none => simp [h2] at e
            | some s2 =>
                simp only [h2] at e
                cases h3 : f s2 none with
                | none => simp [h3] at e
                | some q =>
                    obtain ⟨s3, b3⟩ := q
                    simp only [h3, Option.some.injEq] at e
                    exact ⟨s2, rfl, b3, by rw [h3, e]⟩
          · rintro ⟨s1', b', ⟨rfl, rfl⟩, h1 | h1⟩
            · exact absurd h1.1 (by simp)
            · obtain ⟨_, s2, h2, b3, h3⟩ := h1
              simp [h2, h3]

theorem inspectList_cons_some {σ : Type} (f : σ → Option Node → Option (σ × Bool))
    (t : Tree) (ts : List Tree) (s r : σ) :
    inspectList f (t :: ts) s = some r ↔
      ∃ s1, inspect f t s = some s1 ∧ inspectList f ts s1 = some r := by
  simp only [inspectList]
  cases inspect f t s with
  | none => simp
  | some s1 => simp

theorem qualifyingGot_assign (lhs rhs : List Expr) (tok : Token) (N : String) :
    QualifyingGot (.stmt (.assignStmt lhs tok rhs)) N ↔ GotHit lhs rhs N := by
  constructor
  · rintro ⟨lhs1, tok1, x, sel, args, rest, hn, hg, hs⟩
    injection hn with hn
    injection hn with h1 h2 h3
    subst h1 h2 h3
    exact ⟨hg, x, sel, args, rest, rfl, hs⟩
  · rintro ⟨hg, x, sel, args, rest, rfl, hs⟩
    exact ⟨lhs, tok, x, sel, args, rest, rfl, hg, hs⟩

theorem gotHit_cons {l : Expr} {lhs rhs : List Expr} {N : String} (h : GotHit lhs rhs N) :
    GotHit (l :: lhs) rhs N :=
  ⟨List.mem_cons_of_mem _ h.1, h.2⟩

/-- What the loop over the left-hand sides answers. -/
theorem gotLoop_spec (rhs : List Expr) (s : String) :
    ∀ (lhs : List Expr) (r : String) (b : Bool), gotLoop rhs s lhs = some (r, b) →
      (b = false ∧ GotHit lhs rhs r) ∨ (b = true ∧ r = s ∧ ∀ N, ¬ GotHit lhs rhs N)
  | [], r, b, h => by
      simp only [gotLoop, Option.some.injEq, Prod.mk.injEq] at h
      exact Or.inr ⟨h.2.symm, h.1.symm, fun N hN => by simpa using hN.1⟩
  | l :: rest, r, b, h => by
      have ih := gotLoop_spec rhs s rest r b
      have keep : gotLoop rhs s rest = some (r, b) →
          (∀ N, GotHit (l :: rest) rhs N → GotHit rest rhs N) →
          (b = false ∧ GotHit (l :: rest) rhs r) ∨
            (b = true ∧ r = s ∧ ∀ N, ¬ GotHit (l :: rest) rhs N) := by
        intro h1 hdown
        rcases ih h1 with ⟨hb, hh⟩ | ⟨hb, hr, hno⟩
        · exact Or.inl ⟨hb, gotHit_cons hh⟩
        · exact Or.inr ⟨hb, hr, fun N hN => hno N (hdown N hN)⟩
      unfold gotLoop at h
      split at h
      · next ident =>
          split at h
          · next hgot =>
              split at h
              · exact absurd h (by simp)
              · next rhs0 rhsRest =>
                  split at h
                  · next x sel args =>
                      simp only [Option.some.injEq, Prod.mk.injEq] at h
                      refine Or.inl ⟨h.2.symm, ?_, x, sel, args, rhsRest, rfl, h.1⟩
                      have : ident = ⟨"got"⟩ := by cases ident; simp_all
                      rw [this]
                      exact List.mem_cons_self _ _
                  · next hnot =>
                      apply keep h
                      rintro N ⟨_, x, sel, args, rest1, hr, _⟩
                      injection hr with h1 h2
                      exact absurd h1 (hnot x sel args)
          · next hgot =>
              apply keep h
              rintro N ⟨hmem, hrest⟩
              refine ⟨?_, hrest⟩
              rcases List.mem_cons.mp hmem with heq | hmem
              · injection heq with heq
                exact absurd (by rw [← heq]) hgot
              · exact hmem
      · next hnot =>
          apply keep h
          rintro N ⟨hmem, hrest⟩
          refine ⟨?_, hrest⟩
          rcases List.mem_cons.mp hmem with heq | hmem
          · exact absurd heq.symm (hnot _)
          · exact hmem

/-- The loop fails only on an assignment without right-hand expressions. -/
theorem gotLoop_total (rhs : List Expr) (s : String) (hr : rhs ≠ []) :
    ∀ lhs : List Expr, ∃ r b, gotLoop rhs s lhs = some (r, b)
  | [] => ⟨s, true, rfl⟩
  | l :: rest => by
      have ih := gotLoop_total rhs s hr rest
      unfold gotLoop
      split
      · split
        · split
          · next h => exact absurd rfl hr
          · split
            · exact ⟨_, _, rfl⟩
            · exact ih
        · exact ih
      · exact ih

theorem visitGot_spec (s : String) (n : Node) (r : String) (b : Bool)
    (h : visitGot s (some n) = some (r, b)) :
    (b = false ∧ QualifyingGot n r) ∨ (b = true ∧ r = s ∧ ∀ N, ¬ QualifyingGot n N) := by
  unfold visitGot at h
  split at h
  · next lhs tok rhs heq =>
      cases heq
      simp only [qualifyingGot_assign]
      exact gotLoop_spec rhs s lhs r b h
  · next hnot =>
      simp only [Option.some.injEq, Prod.mk.injEq] at h
      refine Or.inr ⟨h.2.symm, h.1.symm, ?_⟩
      rintro N ⟨lhs, tok, x, sel, args, rest, hn, _⟩
      exact hnot _ _ _ (by rw [hn])

theorem visitGot_nil (s : String) : visitGot s none = some (s, true) := rfl

theorem visitGot_total (s : String) (n : Node) (h : n.isEmptyAssign = false) :
    ∃ r b, visitGot s (some n) = some (r, b) := by
  unfold visitGot
  split
  · next lhs tok rhs heq =>
      cases heq
      apply gotLoop_total
      intro hr
      subst hr
      simp [Node.isEmptyAssign] at h
  · exact ⟨_, _, rfl⟩

/-! ## findTestedFunctionName: the walk -/


theorem mem_preorder_node {m n : Node} {kids : List Tree} :
    m ∈ preorder (.node n kids) ↔ m = n ∨ m ∈ preorderList kids := by
  simp [preorder]

theorem mem_preorderList_cons {m : Node} {t : Tree} {ts : List Tree} :
    m ∈ preorderList (t :: ts) ↔ m ∈ preorder t ∨ m ∈ preorderList ts := by
  simp [preorderList]

mutual
/-- The name the walk ends with is the initial one or comes from a qualifying
assignment of the tree. -/
theorem visitGot_sound :
    ∀ (t : Tree) (s r : String), inspect visitGot t s = some r →
      r = s ∨ ∃ n ∈ preorder t, QualifyingGot n r
  | .node n kids, s, r, h => by
      rw [inspect_node_some] at h
      obtain ⟨s1, b, hv, hcase⟩ := h
      rcases visitGot_spec s n s1 b hv with ⟨hb, hq⟩ | ⟨hb, hs1, _⟩
      · rcases hcase with ⟨_, hr⟩ | ⟨hb1, _⟩
        · subst hr
          exact Or.inr ⟨n, mem_preorder_node.mpr (Or.inl rfl), hq⟩
        · rw [hb] at hb1
          cases hb1
      · rcases hcase with ⟨hb1, _⟩ | ⟨_, s2, hl, b3, hnil⟩
        · rw [hb] at hb1
          cases hb1
        · rw [visitGot_nil] at hnil
          simp only [Option.some.injEq, Prod.mk.injEq] at hnil
          rw [hnil.1, hs1] at hl
          rcases visitGotList_sound kids s r hl with hr | ⟨m, hm, hq⟩
          · exact Or.inl hr
          · exact Or.inr ⟨m, mem_preorder_node.mpr (Or.inr hm), hq⟩
theorem visitGotList_sound :
    ∀ (ts : List Tree) (s r : String), inspectList visitGot ts s = some r →
      r = s ∨ ∃ n ∈ preorderList ts, QualifyingGot n r
  | [], s, r, h => by
      simp only [inspectList, Option.some.injEq] at h
      exact Or.inl h.symm
  | t :: ts, s, r, h => by
      rw [inspectList_cons_some] at h
      obtain ⟨s1, h1, h2⟩ := h
      rcases visitGotList_sound ts s1 r h2 with hr | ⟨m, hm, hq⟩
      · subst hr
        rcases visitGot_sound t s r h1 with hr | ⟨m, hm, hq⟩
        · exact Or.inl hr
        · exact Or.inr ⟨m, mem_preorderList_cons.mpr (Or.inl hm), hq⟩
      · exact Or.inr ⟨m, mem_preorderList_cons.mpr (Or.inr hm), hq⟩
end

mutual
/-- A non-empty name stays non-empty, and a qualifying assignment anywhere in
the tree makes the name non-empty, also when its subtree is pruned. -/
theorem visitGot_complete :
    ∀ (t : Tree) (s r : String),
      (∀ n ∈ preorder t, ∀ N, QualifyingGot n N → N ≠ "") →
      inspect visitGot t s = some r →
      (s ≠ "" → r ≠ "") ∧ ((∃ n ∈ preorder t, ∃ N, QualifyingGot n N) → r ≠ "")
  | .node n kids, s, r, hsel, h => by
      rw [inspect_node_some] at h
      obtain ⟨s1, b, hv, hcase⟩ := h
      rcases visitGot_spec s n s1 b hv with ⟨hb, hq⟩ | ⟨hb, hs1, hno⟩
      · rcases hcase with ⟨_, hr⟩ | ⟨hb1, _⟩
        · subst hr
          have := hsel n (mem_preorder_node.mpr (Or.inl rfl)) r hq
          exact ⟨fun _ => this, fun _ => this⟩
        · rw [hb] at hb1
          cases hb1
      · rcases hcase with ⟨hb1, _⟩ | ⟨_, s2, hl, b3, hnil⟩
        · rw [hb] at hb1
          cases hb1
        · rw [visitGot_nil] at hnil
          simp only [Option.some.injEq, Prod.mk.injEq] at hnil
          rw [hnil.1, hs1] at hl
          have ih := visitGotList_complete kids s r
            (fun m hm => hsel m (mem_preorder_node.mpr (Or.inr hm))) hl
          refine ⟨ih.1, ?_⟩
          rintro ⟨m, hm, N, hq⟩
          rcases mem_preorder_node.mp hm with rfl | hm
          · exact absurd hq (hno N)
          · exact ih.2 ⟨m, hm, N, hq⟩
theorem visitGotList_complete :
    ∀ (ts : List Tree) (s r : String),
      (∀ n ∈ preorderList ts, ∀ N, QualifyingGot n N → N ≠ "") →
      inspectList visitGot ts s = some r →
      (s ≠ "" → r ≠ "") ∧ ((∃ n ∈ preorderList ts, ∃ N, QualifyingGot n N) → r ≠ "")
  | [], s, r, _, h => by
      simp only [inspectList, Option.some.injEq] at h
      subst h
      exact ⟨id, fun ⟨m, hm, _⟩ => by simp [preorderList] at hm⟩
  | t :: ts, s, r, hsel, h => by
      rw [inspectList_cons_some] at h
      obtain ⟨s1, h1, h2⟩ := h
      have ih1 := visitGot_complete t s s1
        (fun m hm => hsel m (mem_preorderList_cons.mpr (Or.inl hm))) h1
      have ih2 := visitGotList_complete ts s1 r
        (fun m hm => hsel m (mem_preorderList_cons.mpr (Or.inr hm))) h2
      refine ⟨fun hs => ih2.1 (ih1.1 hs), ?_⟩
      rintro ⟨m, hm, N, hq⟩
      rcases mem_preorderList_cons.mp hm with hm | hm
      · exact ih2.1 (ih1.2 ⟨m, hm, N, hq⟩)
      · exact ih2.2 ⟨m, hm, N, hq⟩
end

mutual
/-- The walk returns when every assignment has a right-hand expression. -/
theorem visitGot_returns :
    ∀ (t : Tree) (s : String), (∀ n ∈ preorder t, n.isEmptyAssign = false) →
      ∃ r, inspect visitGot t s = some r
  | .node n kids, s, hrhs => by
      obtain ⟨s1, b, hv⟩ := visitGot_total s n (hrhs n (mem_preorder_node.mpr (Or.inl rfl)))
      cases b with
      | false => exact ⟨s1, (inspect_node_some _ _ _ _ _).mpr ⟨s1, false, hv, Or.inl ⟨rfl, rfl⟩⟩⟩
      | true =>
          obtain ⟨s2, hl⟩ := visitGotList_returns kids s1
            (fun m hm => hrhs m (mem_preorder_node.mpr (Or.inr hm)))
          exact ⟨s2, (inspect_node_some _ _ _ _ _).mpr
            ⟨s1, true, hv, Or.inr ⟨rfl, s2, hl, true, visitGot_nil s2⟩⟩⟩
theorem visitGotList_returns :
    ∀ (ts : List Tree) (s : String), (∀ n ∈ preorderList ts, n.isEmptyAssign = false) →
      ∃ r, inspectList visitGot ts s = some r
  | [], s, _ => ⟨s, rfl⟩
  | t :: ts, s, hrhs => by
      obtain ⟨s1, h1⟩ := visitGot_returns t s
        (fun m hm => hrhs m (mem_preorderList_cons.mpr (Or.inl hm)))
      obtain ⟨r, h2⟩ := visitGotList_returns ts s1
        (fun m hm => hrhs m (mem_preorderList_cons.mpr (Or.inr hm)))
      exact ⟨r, (inspectList_cons_some _ _ _ _ _).mpr ⟨s1, h1, h2⟩⟩
end

/-- C7, resolution soundness: if `findTestedFunctionName` returns a non-empty
name `N` for a function declaration, the body of the declaration contains an
assignment statement with a left-hand identifier `got` whose first right-hand
expression is a call whose callee is a selector expression with trailing
selector name `N`. -/
theorem findTestedFunctionName_sound (fn : FuncDecl) (N : String)
    (h : findTestedFunctionName fn = some N) (hN : N ≠ "") :
    ∃ body, fn.Body = some body ∧
      ∃ lhs tok x sel args rest,
        Node.stmt (.assignStmt lhs tok (.callExpr (.mk (.selectorExpr x sel) args) :: rest)) ∈
          preorder (blockTree body) ∧
        Expr.ident ⟨"got"⟩ ∈ lhs ∧ sel.Name = N := by
  unfold findTestedFunctionName inspectBody at h
  cases hb : fn.Body with
  | none => simp [hb] at h
  | some body =>
      simp only [hb] at h
      refine ⟨body, rfl, ?_⟩
      rcases visitGot_sound (blockTree body) "" N h with hr | ⟨n, hn, hq⟩
      · exact absurd hr hN
      · obtain ⟨lhs, tok, x, sel, args, rest, rfl, hg, hs⟩ := hq
        exact ⟨lhs, tok, x, sel, args, rest, hn, hg, hs⟩

/-- C7, witness: the function with `got := a.Foo()` and `got = b.Bar()`. -/
theorem findTestedFunctionName_sound_witness :
    ∃ body, twoGotFunc.Body = some body ∧
      ∃ lhs tok x sel args rest,
        Node.stmt (.assignStmt lhs tok (.callExpr (.mk (.selectorExpr x sel) args) :: rest)) ∈
          preorder (blockTree body) ∧
        Expr.ident ⟨"got"⟩ ∈ lhs ∧ sel.Name = "Bar" :=
  findTestedFunctionName_sound twoGotFunc "Bar" (by decide) (by decide)

/-- C8, the code at the failing input: with `got := a.Foo()` followed by
`got = b.Bar()` the resolver returns `Bar`, the last qualifying assignment, not
`Foo`, the first. -/
theorem findTestedFunctionName_twoGotFunc :
    findTestedFunctionName twoGotFunc = some "Bar" := by
  decide

/-- C10: for a function with a body in which every assignment statement has a
right-hand expression and the selector names of qualifying calls are
non-empty, `findTestedFunctionName` returns, and the name is empty if and only
if the body contains no assignment statement with a left-hand identifier `got`
whose first right-hand expression is a call with a selector callee. -/
theorem findTestedFunctionName_empty_iff (fn : FuncDecl) (body : BlockStmt)
    (hbody : fn.Body = some body)
    (hrhs : ∀ n ∈ preorder (blockTree body), n.isEmptyAssign = false)
    (hsel : ∀ n ∈ preorder (blockTree body), ∀ N, QualifyingGot n N → N ≠ "") :
    ∃ r, findTestedFunctionName fn = some r ∧
      (r = "" ↔ ¬ ∃ lhs tok x sel args rest,
        Node.stmt (.assignStmt lhs tok (.callExpr (.mk (.selectorExpr x sel) args) :: rest)) ∈
          preorder (blockTree body) ∧
        Expr.ident ⟨"got"⟩ ∈ lhs) := by
  obtain ⟨r, hr⟩ := visitGot_returns (blockTree body) "" hrhs
  refine ⟨r, by simp [findTestedFunctionName, inspectBody, hbody, hr], ?_⟩
  constructor
  · rintro rfl ⟨lhs, tok, x, sel, args, rest, hn, hg⟩
    exact (visitGot_complete (blockTree body) "" "" hsel hr).2
      ⟨_, hn, sel.Name, lhs, tok, x, sel, args, rest, rfl, hg, rfl⟩ rfl
  · intro hno
    rcases visitGot_sound (blockTree body) "" r hr with h | ⟨n, hn, hq⟩
    · exact h
    · obtain ⟨lhs, tok, x, sel, args, rest, rfl, hg, _⟩ := hq
      exact absurd ⟨lhs, tok, x, sel, args, rest, hn, hg⟩ hno

theorem twoGotFunc_sel : ∀ n ∈ preorder (blockTree (.mk
      [.assignStmt [.ident ⟨"got"⟩] .DEFINE [methodCall "a" "Foo" []],
       .assignStmt [.ident ⟨"got"⟩] .ASSIGN [methodCall "b" "Bar" []]])),
    ∀ N, QualifyingGot n N → N ≠ "" := by
  intro n hn N hq
  obtain ⟨lhs, tok, x, sel, args, rest, rfl, _, rfl⟩ := hq
  simp [blockTree, stmtsTree, stmtTree, exprsTree, exprTree, callTree, methodCall, identTree,
    preorder, preorderList] at hn
  rcases hn with ⟨_, _, ⟨⟨_, hs⟩, _⟩, _⟩ | ⟨_, _, ⟨⟨_, hs⟩, _⟩, _⟩ <;> rw [hs] <;> decide

/-- C10, witness: the function with `got := a.Foo()` and `got = b.Bar()`. -/
theorem findTestedFunctionName_empty_iff_witness :
    ∃ r, findTestedFunctionName twoGotFunc = some r ∧
      (r = "" ↔ ¬ ∃ lhs tok x sel args rest,
        Node.stmt (.assignStmt lhs tok (.callExpr (.mk (.selectorExpr x sel) args) :: rest)) ∈
          preorder (blockTree (.mk
            [.assignStmt [.ident ⟨"got"⟩] .DEFINE [methodCall "a" "Foo" []],
             .assignStmt [.ident ⟨"got"⟩] .ASSIGN [methodCall "b" "Bar" []]])) ∧
        Expr.ident ⟨"got"⟩ ∈ lhs) :=
  findTestedFunctionName_empty_iff twoGotFunc _ rfl (by decide) twoGotFunc_sel

/-! ## findFunctionImplementation and the enrichment pass -/


theorem visitImpl_idle (P : Printer) (N : String) (s : String) (n : Node)
    (h : n.isFuncDecl = false) : visitImpl P N s (some n) = some (s, true) := by
  unfold visitImpl
  split
  · next heq =>
      cases heq
      simp [Node.isFuncDecl] at h
  · rfl

theorem visitImpl_eq (P : Printer) (N : String) (s : String) (fn : FuncDecl) :
    visitImpl P N s (some (.decl (.funcDecl fn))) =
      (some (implStep P N s fn)).map (fun s1 => (s1, !decide (fn.Name.Name = N))) := by
  simp only [visitImpl, implStep]
  split <;> simp_all

theorem implStep_foldl (P : Printer) (N : String) :
    ∀ (fns : List FuncDecl) (s : String),
      fns.foldl (implStep P N) s =
        match lastNamed N fns with
        | some fn => P (.decl (.funcDecl fn))
        | none => s
  | [], s => rfl
  | fn :: rest, s => by
      simp only [List.foldl_cons, implStep_foldl P N rest, lastNamed_cons]
      cases lastNamed N rest with
      | some g => rfl
      | none =>
          by_cases h : fn.Name.Name = N <;> simp [implStep, h]

/-- The walk of `findFunctionImplementation` ends with the text of the last
declaration named `functionName`, or with the empty text. -/
theorem inspect_visitImpl (P : Printer) (N : String) (node : File) :
    inspect (visitImpl P N) (fileTree node) "" =
      some (match lastNamed N (funcDecls node) with
        | some fn => P (.decl (.funcDecl fn))
        | none => "") := by
  rw [inspect_fileTree (visitImpl P N) (fun s fn => some (implStep P N s fn))
    (fun _ fn => !decide (fn.Name.Name = N)) (visitImpl_idle P N) (fun _ => rfl)
    (visitImpl_eq P N) node "", foldOpt_some, implStep_foldl]

theorem findFunctionImplementation_last (P : Printer) (node : File) (N : String) (fn : FuncDecl)
    (hlast : lastNamed N (funcDecls node) = some fn) (htext : P (.decl (.funcDecl fn)) ≠ "") :
    findFunctionImplementation P (some node) N = .ok (P (.decl (.funcDecl fn))) := by
  simp only [findFunctionImplementation, inspect_visitImpl, hlast, htext, if_false]

theorem findFunctionImplementation_none (P : Printer) (node : File) (N : String)
    (hnone : lastNamed N (funcDecls node) = none) :
    findFunctionImplementation P (some node) N = .error (.notFound N) := by
  simp only [findFunctionImplementation, inspect_visitImpl, hnone, if_true]

theorem visitMain_idle (P : Printer) (impl : Option File) (m : TestCases) (n : Node)
    (h : n.isFuncDecl = false) : visitMain P impl m (some n) = some (m, true) := by
  unfold visitMain
  split
  · next heq =>
      cases heq
      simp [Node.isFuncDecl] at h
  · rfl

theorem visitMain_eq (P : Printer) (impl : Option File) (m : TestCases) (fn : FuncDecl) :
    visitMain P impl m (some (.decl (.funcDecl fn))) =
      (enrichStep P impl m fn).map (fun s1 => (s1, true)) := by
  simp only [visitMain, enrichStep]
  split
  · cases findTestedFunctionName fn with
    | none => rfl
    | some name =>
        simp only []
        split
        · cases findFunctionImplementation P impl name <;> rfl
        · rfl
  · rfl

/-- The enrichment pass is a fold over the function declarations of the test
file. -/
theorem mainEnrich_fold (P : Printer) (node : File) (impl : Option File) :
    mainEnrich P node impl =
      match findTestCases P node with
      | none => none
      | some m => foldOpt (enrichStep P impl) m (funcDecls node) := by
  unfold mainEnrich
  cases findTestCases P node with
  | none => rfl
  | some m =>
      exact inspect_fileTree (visitMain P impl) (enrichStep P impl) (fun _ _ => true)
        (visitMain_idle P impl) (fun _ => rfl) (visitMain_eq P impl) node m

theorem lastNamed_unique {N : String} {fns : List FuncDecl} {fn : FuncDecl}
    (hmem : fn ∈ fns) (hname : fn.Name.Name = N)
    (huniq : ∀ g ∈ fns, g.Name.Name = N → g = fn) : lastNamed N fns = some fn := by
  cases h : lastNamed N fns with
  | none => exact absurd hname (lastNamed_none.mp h fn hmem)
  | some g =>
      have := lastNamed_some h
      rw [huniq g this.1 this.2]

theorem exampleFile_bodies (callee : Expr) :
    ∀ fn ∈ testDecls (exampleFile callee), fn.Body ≠ none := by
  intro fn hfn
  have h : testDecls (exampleFile callee) = [testFunc "TestAdd" (exampleBody callee)] := rfl
  rw [h, List.mem_singleton] at hfn
  subst hfn
  simp [testFunc]

/-- C9 (as amended): for the spec's example with the callee written through a
selector, `got := pkg.Add(tt.a, tt.b)`, and a companion file that declares
`Add` once with a non-empty rendered text, the pipeline gives the one test
case of `TestAdd` the declaration text of `Add`; with the plain identifier
callee `Add` the test case keeps the empty tested-function text. -/
theorem example_pipeline (P : Printer) (impl : File) (add : FuncDecl) (pkg : String)
    (hdecl : Decl.funcDecl add ∈ impl.Decls) (hname : add.Name.Name = "Add")
    (huniq : ∀ g, Decl.funcDecl g ∈ impl.Decls → g.Name.Name = "Add" → g = add)
    (htext : P (.decl (.funcDecl add)) ≠ "") :
    (mainEnrich P (exampleFile (.selectorExpr (.ident ⟨pkg⟩) ⟨"Add"⟩)) (some impl)).map
        (fun m => m "TestAdd") =
      some (some [⟨"positive", P (.expr exampleRow), P (.decl (.funcDecl add))⟩]) ∧
    (mainEnrich P (exampleFile (.ident ⟨"Add"⟩)) (some impl)).map (fun m => m "TestAdd") =
      some (some [⟨"positive", P (.expr exampleRow), ""⟩]) := by
  have hlast : lastNamed "Add" (funcDecls impl) = some add :=
    lastNamed_unique (mem_funcDecls.mpr hdecl) hname
      (fun g hg hn => huniq g (mem_funcDecls.mp hg) hn)
  have himpl := findFunctionImplementation_last P impl "Add" add hlast htext
  constructor
  · rw [mainEnrich_fold, findTestCases_eq P _ (exampleFile_bodies _)]
    have hf : funcDecls (exampleFile (.selectorExpr (.ident ⟨pkg⟩) ⟨"Add"⟩)) =
        [testFunc "TestAdd" (exampleBody (.selectorExpr (.ident ⟨pkg⟩) ⟨"Add"⟩))] := rfl
    have hr : findTestedFunctionName
        (testFunc "TestAdd" (exampleBody (.selectorExpr (.ident ⟨pkg⟩) ⟨"Add"⟩))) =
        some "Add" := rfl
    have hp : stringsHasPrefix
        (testFunc "TestAdd" (exampleBody (.selectorExpr (.ident ⟨pkg⟩) ⟨"Add"⟩))).Name.Name
        "Test" = true := rfl
    simp only [hf, foldOpt, enrichStep, hp, if_true, hr, himpl]
    rfl
  · rw [mainEnrich_fold, findTestCases_eq P _ (exampleFile_bodies _)]
    have hf : funcDecls (exampleFile (.ident ⟨"Add"⟩)) =
        [testFunc "TestAdd" (exampleBody (.ident ⟨"Add"⟩))] := rfl
    have hr : findTestedFunctionName (testFunc "TestAdd" (exampleBody (.ident ⟨"Add"⟩))) =
        some "" := rfl
    have hp : stringsHasPrefix
        (testFunc "TestAdd" (exampleBody (.ident ⟨"Add"⟩))).Name.Name "Test" = true := rfl
    simp only [hf, foldOpt, enrichStep, hp, if_true, hr]
    rfl

/-- C9, witness: the demo printer and the companion file `implAdd`. -/
theorem example_pipeline_witness :
    (mainEnrich demoPrinter (exampleFile (.selectorExpr (.ident ⟨"calc"⟩) ⟨"Add"⟩))
        (some implAdd)).map (fun m => m "TestAdd") =
      some (some [⟨"positive", demoPrinter (.expr exampleRow),
        demoPrinter (.decl (.funcDecl addDecl))⟩]) ∧
    (mainEnrich demoPrinter (exampleFile (.ident ⟨"Add"⟩)) (some implAdd)).map
        (fun m => m "TestAdd") =
      some (some [⟨"positive", demoPrinter (.expr exampleRow), ""⟩]) :=
  example_pipeline demoPrinter implAdd addDecl "calc" (by simp [implAdd]) rfl
    (by
      intro g hg _
      simp only [implAdd, List.mem_singleton, Decl.funcDecl.injEq] at hg
      exact hg)
    (by decide)

/-- C9, counterexample: in the spec's example the callee is the plain
identifier `Add`; the companion file declares `Add` with the text `func Add`,
the resolver returns the empty name, and the test case of `TestAdd` keeps an
empty tested-function text. -/
theorem example_pipeline_counterexample :
    findFunctionImplementation demoPrinter (some implAdd) "Add" = .ok "func Add" ∧
    findTestedFunctionName (testFunc "TestAdd" (exampleBody (.ident ⟨"Add"⟩))) = some "" ∧
    (mainEnrich demoPrinter (exampleFile (.ident ⟨"Add"⟩)) (some implAdd)).map
        (fun m => m "TestAdd") =
      some (some [⟨"positive", "lit/4", ""⟩]) := by
  refine ⟨rfl, rfl, by decide⟩

/-! ## findFunctionImplementation: which declaration -/


theorem funcDecls_split {node : File} {pre post : List Decl} {fn : FuncDecl}
    (hs : node.Decls = pre ++ Decl.funcDecl fn :: post) :
    funcDecls node = pre.filterMap Decl.asFuncDecl ++ fn :: post.filterMap Decl.asFuncDecl := by
  simp [funcDecls, hs, List.filterMap_append, List.filterMap_cons, Decl.asFuncDecl]

/-- A declaration that no later declaration of the same name follows is the
last of its name among the function declarations of the file. -/
theorem lastNamed_funcDecls {node : File} {pre post : List Decl} {fn : FuncDecl} {N : String}
    (hs : node.Decls = pre ++ Decl.funcDecl fn :: post) (hname : fn.Name.Name = N)
    (hlast : ∀ g, Decl.funcDecl g ∈ post → g.Name.Name ≠ N) :
    lastNamed N (funcDecls node) = some fn := by
  subst hname
  rw [funcDecls_split hs]
  exact lastNamed_split fn _ _ (fun g hg => hlast g (mem_asFuncDecl hg))

/-- The lookup never ends in the panic branch and reports a found text only
for a declaration of the file. -/
theorem findFunctionImplementation_cases (P : Printer) (node : File) (N : String) :
    (∃ fn, lastNamed N (funcDecls node) = some fn ∧ P (.decl (.funcDecl fn)) ≠ "" ∧
      findFunctionImplementation P (some node) N = .ok (P (.decl (.funcDecl fn)))) ∨
    (findFunctionImplementation P (some node) N = .error (.notFound N) ∧
      ∀ fn, lastNamed N (funcDecls node) = some fn → P (.decl (.funcDecl fn)) = "") := by
  cases h : lastNamed N (funcDecls node) with
  | none =>
      exact Or.inr ⟨findFunctionImplementation_none P node N h, fun fn hfn => by cases hfn⟩
  | some fn =>
      by_cases ht : P (.decl (.funcDecl fn)) = ""
      · refine Or.inr ⟨?_, fun g hg => by cases hg; exact ht⟩
        simp only [findFunctionImplementation, inspect_visitImpl, h, ht, if_true]
      · exact Or.inl ⟨fn, rfl, ht, findFunctionImplementation_last P node N fn h ht⟩

/-- C11: for a parsed implementation file whose function declarations are
rendered to non-empty text, `findFunctionImplementation` returns the rendered
text of a declaration named exactly `N` when the file has one, and it returns
an error exactly when no function declaration of the file is named `N`; the
error is then `function not found`. -/
theorem findFunctionImplementation_found_iff (P : Printer) (node : File) (N : String)
    (hP : ∀ fn, Decl.funcDecl fn ∈ node.Decls → P (.decl (.funcDecl fn)) ≠ "") :
    ((∃ fn, Decl.funcDecl fn ∈ node.Decls ∧ fn.Name.Name = N) →
      ∃ fn, Decl.funcDecl fn ∈ node.Decls ∧ fn.Name.Name = N ∧
        findFunctionImplementation P (some node) N = .ok (P (.decl (.funcDecl fn)))) ∧
    ((∃ e, findFunctionImplementation P (some node) N = .error e) ↔
      ¬ ∃ fn, Decl.funcDecl fn ∈ node.Decls ∧ fn.Name.Name = N) ∧
    (∀ e, findFunctionImplementation P (some node) N = .error e → e = .notFound N) := by
  rcases findFunctionImplementation_cases P node N with ⟨fn, hl, _, hok⟩ | ⟨herr, hempty⟩
  · have hfn := lastNamed_some hl
    refine ⟨fun _ => ⟨fn, mem_funcDecls.mp hfn.1, hfn.2, hok⟩, ?_, ?_⟩
    · constructor
      · rintro ⟨e, he⟩
        rw [hok] at he
        cases he
      · intro hno
        exact absurd ⟨fn, mem_funcDecls.mp hfn.1, hfn.2⟩ hno
    · intro e he
      rw [hok] at he
      cases he
  · have hnone : ¬ ∃ fn, Decl.funcDecl fn ∈ node.Decls ∧ fn.Name.Name = N := by
      rintro ⟨fn, hmem, hname⟩
      obtain ⟨g, hg⟩ := Option.isSome_iff_exists.mp
        (lastNamed_isSome.mpr ⟨fn, mem_funcDecls.mpr hmem, hname⟩)
      exact hP g (mem_funcDecls.mp (lastNamed_some hg).1) (hempty g hg)
    refine ⟨fun h => absurd h hnone, ?_, ?_⟩
    · exact ⟨fun _ => hnone, fun _ => ⟨_, herr⟩⟩
    · intro e he
      rw [herr] at he
      cases he
      rfl

theorem implAdd_text : ∀ fn, Decl.funcDecl fn ∈ implAdd.Decls →
    demoPrinter (.decl (.funcDecl fn)) ≠ "" := by
  intro fn hfn
  simp only [implAdd, List.mem_singleton, Decl.funcDecl.injEq] at hfn
  subst hfn
  decide

/-- C11, witness: the companion file `implAdd` and the name `Add`. -/
theorem findFunctionImplementation_found_iff_witness :
    ((∃ fn, Decl.funcDecl fn ∈ implAdd.Decls ∧ fn.Name.Name = "Add") →
      ∃ fn, Decl.funcDecl fn ∈ implAdd.Decls ∧ fn.Name.Name = "Add" ∧
        findFunctionImplementation demoPrinter (some implAdd) "Add" =
          .ok (demoPrinter (.decl (.funcDecl fn)))) ∧
    ((∃ e, findFunctionImplementation demoPrinter (some implAdd) "Add" = .error e) ↔
      ¬ ∃ fn, Decl.funcDecl fn ∈ implAdd.Decls ∧ fn.Name.Name = "Add") ∧
    (∀ e, findFunctionImplementation demoPrinter (some implAdd) "Add" = .error e →
      e = .notFound "Add") :=
  findFunctionImplementation_found_iff demoPrinter implAdd "Add" implAdd_text

/-- C17: when several function declarations of the implementation file are
named `N`, `findFunctionImplementation` returns the rendered text of the last
one in file order, whatever precedes it: on a match the closure answers
`false`, which prunes the subtree of that declaration only, and the walk goes
on to the later declarations. -/
theorem findFunctionImplementation_last_wins (P : Printer) (node : File) (N : String)
    (pre post : List Decl) (fn : FuncDecl)
    (hs : node.Decls = pre ++ Decl.funcDecl fn :: post) (hname : fn.Name.Name = N)
    (hlast : ∀ g, Decl.funcDecl g ∈ post → g.Name.Name ≠ N)
    (htext : P (.decl (.funcDecl fn)) ≠ "") :
    findFunctionImplementation P (some node) N = .ok (P (.decl (.funcDecl fn))) ∧
    (∀ code g, g.Name.Name = N →
      visitImpl P N code (some (.decl (.funcDecl g))) = some (P (.decl (.funcDecl g)), false)) := by
  refine ⟨findFunctionImplementation_last P node N fn (lastNamed_funcDecls hs hname hlast) htext,
    ?_⟩
  intro code g hg
  simp [visitImpl, hg]

/-- C17, witness: `Get` is declared on `Stack` and then on `Queue`; the text
returned is that of the method on `Queue`. -/
theorem findFunctionImplementation_last_wins_witness :
    findFunctionImplementation recvPrinter (some twoGetFile) "Get" = .ok "func (Queue) Get" ∧
    (∀ code g, g.Name.Name = "Get" →
      visitImpl recvPrinter "Get" code (some (.decl (.funcDecl g))) =
        some (recvPrinter (.decl (.funcDecl g)), false)) :=
  findFunctionImplementation_last_wins recvPrinter twoGetFile "Get"
    [.funcDecl getOnStack] [] getOnQueue rfl rfl (by simp) (by decide)

/-! ## The implementation file path -/


theorem listContains_short (pat : List Char) :
    ∀ s : List Char, s.length < pat.length → listContains pat s = false
  | [], h => by
      cases pat with
      | nil => simp at h
      | cons p ps => simp [listContains, List.isPrefixOf]
  | c :: cs, h => by
      have h1 : pat.isPrefixOf (c :: cs) = false := by
        cases hp : pat.isPrefixOf (c :: cs) with
        | false => rfl
        | true =>
            have := (List.isPrefixOf_iff_prefix.mp hp).length_le
            omega
      have h2 := listContains_short pat cs (by simp at h; omega)
      simp [listContains, h1, h2]

/-- Without an occurrence the replacement returns the text unchanged. -/
theorem replaceFirst_absent (pat new : List Char) :
    ∀ s : List Char, listContains pat s = false → replaceFirst pat new s = s
  | [], h => by
      simp only [listContains] at h
      simp [replaceFirst, h]
  | c :: cs, h => by
      simp only [listContains, Bool.or_eq_false_iff] at h
      simp [replaceFirst, h.1, replaceFirst_absent pat new cs h.2]

theorem isPrefixOf_stretch {pat a b : List Char} (hlen : pat.length ≤ a.length)
    (h : pat.isPrefixOf a = false) : pat.isPrefixOf (a ++ b) = false := by
  cases hp : pat.isPrefixOf (a ++ b) with
  | false => rfl
  | true =>
      have h1 := List.isPrefixOf_iff_prefix.mp hp
      have h2 : pat <+: a := List.prefix_of_prefix_length_le h1 (List.prefix_append a b) hlen
      rw [List.isPrefixOf_iff_prefix.mpr h2] at h
      cases h

theorem dropLast_split (pat : List Char) (hne : pat ≠ []) (post : List Char) :
    pat ++ post = pat.dropLast ++ (pat.getLast hne :: post) := by
  conv_lhs => rw [← List.dropLast_append_getLast hne]
  simp

/-- When no occurrence begins before the end of `pre`, the occurrence after
`pre` is the one that is replaced. -/
theorem replaceFirst_at (pat new : List Char) (hne : pat ≠ []) (post : List Char) :
    ∀ pre : List Char, listContains pat (pre ++ pat.dropLast) = false →
      replaceFirst pat new (pre ++ pat ++ post) = pre ++ new ++ post
  | [], _ => by
      cases pat with
      | nil => exact absurd rfl hne
      | cons p ps =>
          have hp : (p :: ps).isPrefixOf (p :: ps ++ post) = true :=
            List.isPrefixOf_iff_prefix.mpr (List.prefix_append _ _)
          simp only [List.nil_append, List.cons_append] at hp ⊢
          simp only [replaceFirst, hp, if_true]
          have : List.drop (p :: ps).length (p :: (ps ++ post)) = post := by
            simp
          rw [this]
  | c :: pre, h => by
      rw [List.cons_append] at h
      simp only [listContains, Bool.or_eq_false_iff] at h
      have hlen : pat.length ≤ (c :: (pre ++ pat.dropLast)).length := by
        simp
        have := List.length_pos.mpr hne
        omega
      have h1 : pat.isPrefixOf (c :: (pre ++ pat ++ post)) = false := by
        have := @isPrefixOf_stretch pat _ (pat.getLast hne :: post) hlen h.1
        rw [List.cons_append, List.append_assoc, ← dropLast_split pat hne post] at this
        rw [List.append_assoc]
        exact this
      rw [List.cons_append, List.cons_append]
      simp only [replaceFirst, h1]
      rw [replaceFirst_at pat new hne post pre h.2]
      simp

/-- An occurrence gives a first occurrence. -/
theorem listContains_first (pat : List Char) (hne : pat ≠ []) :
    ∀ s : List Char, listContains pat s = true →
      ∃ pre post, s = pre ++ pat ++ post ∧ listContains pat (pre ++ pat.dropLast) = false
  | [], h => by
      simp only [listContains] at h
      cases pat with
      | nil => exact absurd rfl hne
      | cons p ps => simp [List.isPrefixOf] at h
  | c :: cs, h => by
      by_cases hp : pat.isPrefixOf (c :: cs) = true
      · obtain ⟨t, ht⟩ := List.isPrefixOf_iff_prefix.mp hp
        refine ⟨[], t, by simp [ht], ?_⟩
        apply listContains_short
        simp [List.length_dropLast]
        exact List.length_pos.mpr hne
      · have hp1 : pat.isPrefixOf (c :: cs) = false := by
          cases hq : pat.isPrefixOf (c :: cs) with
          | false => rfl
          | true => exact absurd hq hp
        simp only [listContains, hp1, Bool.false_or] at h
        obtain ⟨pre, post, hs, hfirst⟩ := listContains_first pat hne cs h
        refine ⟨c :: pre, post, by simp [hs], ?_⟩
        rw [List.cons_append]
        simp only [listContains, hfirst, Bool.or_false]
        cases hq : pat.isPrefixOf (c :: (pre ++ pat.dropLast)) with
        | false => rfl
        | true =>
            have h1 := List.isPrefixOf_iff_prefix.mp hq
            have h2 : c :: (pre ++ pat.dropLast) <+: c :: cs := by
              rw [hs, List.append_assoc, dropLast_split pat hne post, ← List.append_assoc,
                ← List.cons_append]
              exact List.prefix_append _ _
            rw [List.isPrefixOf_iff_prefix.mpr (h1.trans h2)] at hp1
            cases hp1

theorem suffix_data : "_test.go".data = ['_', 't', 'e', 's', 't', '.', 'g', 'o'] := rfl

theorem suffix_ne : "_test.go".data ≠ [] := by
  rw [suffix_data]
  exact List.cons_ne_nil _ _

/-- An occurrence of `_test.go` cannot straddle the end of a text that is
followed by `_test.g`: the pattern has its only `_` at the start. -/
theorem no_straddle_list :
    ∀ p : List Char, listContains ['_', 't', 'e', 's', 't', '.', 'g', 'o'] p = false →
      listContains ['_', 't', 'e', 's', 't', '.', 'g', 'o']
        (p ++ ['_', 't', 'e', 's', 't', '.', 'g']) = false
  | [], _ => by decide
  | c :: p, h => by
      rw [List.cons_append]
      rw [listContains, Bool.or_eq_false_iff] at h ⊢
      refine ⟨?_, no_straddle_list p h.2⟩
      by_cases hlen : 8 ≤ (c :: p).length
      · have := @isPrefixOf_stretch _ _ ['_', 't', 'e', 's', 't', '.', 'g']
          (by simpa using hlen) h.1
        rwa [List.cons_append] at this
      · cases hq : ['_', 't', 'e', 's', 't', '.', 'g', 'o'].isPrefixOf
            (c :: (p ++ ['_', 't', 'e', 's', 't', '.', 'g'])) with
        | false => rfl
        | true =>
            exfalso
            obtain ⟨t, ht⟩ := List.isPrefixOf_iff_prefix.mp hq
            obtain ⟨k, hk⟩ : ∃ k, p.length = k := ⟨_, rfl⟩
            have hk6 : k ≤ 6 := by
              simp only [List.length_cons] at hlen
              omega
            have hL : (['_', 't', 'e', 's', 't', '.', 'g', 'o'] ++ t)[k + 1]? =
                ['_', 't', 'e', 's', 't', '.', 'g', 'o'][k + 1]? :=
              List.getElem?_append_left (by simp; omega)
            have hR : (c :: (p ++ ['_', 't', 'e', 's', 't', '.', 'g']))[k + 1]? = some '_' := by
              rw [List.getElem?_cons_succ, List.getElem?_append_right (by omega), hk,
                Nat.sub_self]
              rfl
            rw [ht, hR] at hL
            interval_cases k <;> simp at hL

theorem no_straddle (p : List Char) (h : listContains "_test.go".data p = false) :
    listContains "_test.go".data (p ++ "_test.go".data.dropLast) = false :=
  no_straddle_list p h

theorem string_mk_append (a b : List Char) : String.mk (a ++ b) = String.mk a ++ String.mk b :=
  rfl

/-- C19: a test file path without the substring `_test.go` is its own
implementation file path; a path with it is changed only at the first
occurrence of `_test.go` (no occurrence begins further left), where `_test` is
removed, so the derived path is 5 characters shorter. -/
theorem implFilePath_first_occurrence (filePath : String) :
    (stringsContains filePath "_test.go" = false → implFilePath filePath = filePath) ∧
    (stringsContains filePath "_test.go" = true →
      ∃ pre post : String, filePath = pre ++ "_test.go" ++ post ∧
        stringsContains (pre ++ "_test.g") "_test.go" = false ∧
        implFilePath filePath = pre ++ ".go" ++ post ∧
        (implFilePath filePath).length + 5 = filePath.length) := by
  constructor
  · intro h
    simp only [implFilePath, stringsReplaceOnce]
    rw [replaceFirst_absent _ _ _ h]
  · intro h
    obtain ⟨pre, post, hs, hfirst⟩ := listContains_first _ suffix_ne _ h
    have himpl : implFilePath filePath = String.mk pre ++ ".go" ++ String.mk post := by
      simp only [implFilePath, stringsReplaceOnce]
      rw [hs, replaceFirst_at _ _ suffix_ne post pre hfirst]
      rfl
    refine ⟨String.mk pre, String.mk post, ?_, ?_, himpl, ?_⟩
    · apply String.ext
      simpa using hs
    · simpa [stringsContains, suffix_data] using hfirst
    · rw [himpl]
      have h1 : filePath.length = (pre ++ "_test.go".data ++ post).length := by
        rw [← hs]
        rfl
      have h2 : (String.mk pre ++ ".go" ++ String.mk post).length =
          (pre ++ ".go".data ++ post).length := rfl
      have h3 : "_test.go".data.length = 8 := rfl
      have h4 : ".go".data.length = 3 := rfl
      rw [h1, h2, List.length_append, List.length_append, List.length_append,
        List.length_append, h3, h4]
      omega

/-- C19, witness: `calc.go` has no `_test.go` and `pkg/calc_test.go` has one. -/
theorem implFilePath_first_occurrence_witness :
    implFilePath "calc.go" = "calc.go" ∧
    ∃ pre post : String, "pkg/calc_test.go" = pre ++ "_test.go" ++ post ∧
      stringsContains (pre ++ "_test.g") "_test.go" = false ∧
      implFilePath "pkg/calc_test.go" = pre ++ ".go" ++ post ∧
      (implFilePath "pkg/calc_test.go").length + 5 = "pkg/calc_test.go".length :=
  ⟨(implFilePath_first_occurrence "calc.go").1 (by decide),
    (implFilePath_first_occurrence "pkg/calc_test.go").2 (by decide)⟩

/-- C12 (as amended): for a test file path `p ++ "_test.go"` in which `p` does
not contain `_test.go`, the derived implementation file path is `p ++ ".go"`:
the trailing suffix is the first occurrence and is the one replaced. -/
theorem implFilePath_suffix (p : String) (h : stringsContains p "_test.go" = false) :
    implFilePath (p ++ "_test.go") = p ++ ".go" := by
  simp only [implFilePath, stringsReplaceOnce, String.data_append]
  have := replaceFirst_at "_test.go".data ".go".data suffix_ne [] p.data (no_straddle p.data h)
  rw [List.append_nil, List.append_nil] at this
  rw [this]
  rfl

/-- C12, witness: the path `pkg/calc_test.go`. -/
theorem implFilePath_suffix_witness :
    implFilePath ("pkg/calc" ++ "_test.go") = "pkg/calc" ++ ".go" :=
  implFilePath_suffix "pkg/calc" (by decide)

/-- C12, counterexample: the path `a_test.go/b_test.go` ends with `_test.go`,
but the replacement is made at the first occurrence, in the directory name. -/
theorem implFilePath_suffix_counterexample :
    implFilePath ("a_test.go/b" ++ "_test.go") = "a.go/b_test.go" ∧
    implFilePath ("a_test.go/b" ++ "_test.go") ≠ "a_test.go/b" ++ ".go" := by
  refine ⟨by decide, by decide⟩

/-! ## createPrompt, duplicate names, totality -/


/-- C15: `createPrompt` returns one block that embeds its three arguments
verbatim: the implementation text in the first code fence, the test case text
in the second, the test name in the closing question; so the three occur as
contiguous substrings in that order. -/
theorem createPrompt_eq (testName testData fnImplementation : String) :
    createPrompt testName testData fnImplementation =
      "Given this implementation: \n```" ++ fnImplementation ++ "```\n\n" ++
        "And this test case: \n```" ++ testData ++ "```\n\n" ++
        "The name \x27" ++ testName ++ "\x27 is a good choice?" ∧
    ∃ a b c d : String,
      createPrompt testName testData fnImplementation =
        a ++ fnImplementation ++ b ++ testData ++ c ++ testName ++ d := by
  have h : createPrompt testName testData fnImplementation =
      "Given this implementation: \n```" ++ fnImplementation ++ "```\n\n" ++
        "And this test case: \n```" ++ testData ++ "```\n\n" ++
        "The name \x27" ++ testName ++ "\x27 is a good choice?" := by
    simp only [createPrompt, String.append_assoc]
  refine ⟨h, "Given this implementation: \n```", "```\n\n" ++ "And this test case: \n```",
    "```\n\n" ++ "The name \x27", "\x27 is a good choice?", ?_⟩
  rw [h]
  simp only [String.append_assoc]

theorem visitDecl_reset (P : Printer) (m0 : TestCases) (fn : FuncDecl) (body : BlockStmt)
    (hp : stringsHasPrefix fn.Name.Name "Test" = true) (hbody : fn.Body = some body) :
    visitDecl P m0 (some (.decl (.funcDecl fn))) =
      some (m0.set fn.Name.Name (bodyCases P body), true) := by
  rw [visitDecl_eq]
  simp [collectStep, hp, hbody]

/-- C18: when a file declares a `Test` name more than once (and every `Test`
declaration has a body), the entry `findTestCases` returns for the name holds
exactly the test cases of the last declaration of that name.  Visiting a
declaration replaces whatever the collection held under its name, so the test
cases of an earlier declaration are discarded. -/
theorem findTestCases_duplicate (P : Printer) (node : File) (pre post : List Decl)
    (fn : FuncDecl) (body : BlockStmt)
    (hs : node.Decls = pre ++ Decl.funcDecl fn :: post)
    (hp : stringsHasPrefix fn.Name.Name "Test" = true)
    (hlast : ∀ g, Decl.funcDecl g ∈ post → g.Name.Name ≠ fn.Name.Name)
    (hbody : fn.Body = some body)
    (hb : ∀ g, Decl.funcDecl g ∈ node.Decls →
      stringsHasPrefix g.Name.Name "Test" = true → g.Body ≠ none) :
    (∃ m, findTestCases P node = some m ∧
      m fn.Name.Name = some ((preorder (blockTree body)).flatMap (nodeCases P))) ∧
    (∀ m0 : TestCases, ∃ m1,
      visitDecl P m0 (some (.decl (.funcDecl fn))) = some (m1, true) ∧
      m1 fn.Name.Name = some ((preorder (blockTree body)).flatMap (nodeCases P))) := by
  constructor
  · refine ⟨_, findTestCases_eq P node (bodies_testDecls hb), ?_⟩
    simp only [collected, lastNamed_testDecls hs hp hlast, declCases, hbody, bodyCases]
  · intro m0
    exact ⟨_, visitDecl_reset P m0 fn body hp hbody, TestCases.set_at _ _ _⟩

theorem dupTablesFile_bodies : ∀ g, Decl.funcDecl g ∈ dupTablesFile.Decls →
    stringsHasPrefix g.Name.Name "Test" = true → g.Body ≠ none := by
  intro g hg _
  simp only [dupTablesFile, List.mem_cons, Decl.funcDecl.injEq, List.mem_singleton,
    List.not_mem_nil, or_false] at hg
  rcases hg with rfl | rfl <;> simp [dupEarlier, dupSecond, methodFunc]

/-- C18, witness: `TestX` is declared with the row `first` and then with the
row `x`; the entry holds the row `x` only. -/
theorem findTestCases_duplicate_witness :
    ((∃ m, findTestCases demoPrinter dupTablesFile = some m ∧
      m dupSecond.Name.Name =
        some ((preorder (blockTree (.mk [defineTests (tableOf [record [namePair "x"]])]))).flatMap
          (nodeCases demoPrinter))) ∧
    (∀ m0 : TestCases, ∃ m1,
      visitDecl demoPrinter m0 (some (.decl (.funcDecl dupSecond))) = some (m1, true) ∧
      m1 dupSecond.Name.Name =
        some ((preorder (blockTree (.mk [defineTests (tableOf [record [namePair "x"]])]))).flatMap
          (nodeCases demoPrinter)))) ∧
    (findTestCases demoPrinter dupTablesFile).map (fun m => m "TestX") =
      some (some [⟨"x", "lit/1", ""⟩]) :=
  ⟨findTestCases_duplicate demoPrinter dupTablesFile [.funcDecl dupEarlier] [] dupSecond
      (.mk [defineTests (tableOf [record [namePair "x"]])]) rfl (by decide) (by simp) rfl
      dupTablesFile_bodies,
    by decide⟩

theorem mem_preorderList {n : Node} :
    ∀ {ts : List Tree}, n ∈ preorderList ts ↔ ∃ t ∈ ts, n ∈ preorder t
  | [] => by simp [preorderList]
  | t :: ts => by
      simp only [preorderList, List.mem_append, @mem_preorderList n ts, List.mem_cons,
        exists_eq_or_imp]

/-- The nodes of the body of a function declaration of a file are nodes of the
file. -/
theorem body_nodes_of_file {node : File} {fn : FuncDecl} {body : BlockStmt}
    (hfn : Decl.funcDecl fn ∈ node.Decls) (hbody : fn.Body = some body) {n : Node}
    (hn : n ∈ preorder (blockTree body)) : n ∈ preorder (fileTree node) := by
  simp only [fileTree, preorder, List.mem_cons]
  right
  rw [mem_preorderList]
  refine ⟨declTree (.funcDecl fn), List.mem_cons_of_mem _ (List.mem_map_of_mem _ hfn), ?_⟩
  simp only [declTree, funcDeclTree, preorder, List.mem_cons]
  right
  rw [mem_preorderList]
  exact ⟨blockTree body, by simp [hbody, optBlockTree], hn⟩

/-- C20: when every `Test` declaration of the file has a body and every
assignment statement of the file has a right-hand expression, neither
traversal reaches a panic: `findTestCases` returns a collection, and
`findTestedFunctionName` returns a name for every `Test` declaration. -/
theorem traversals_total (P : Printer) (node : File)
    (hbody : ∀ fn, Decl.funcDecl fn ∈ node.Decls →
      stringsHasPrefix fn.Name.Name "Test" = true → fn.Body ≠ none)
    (hrhs : ∀ n ∈ preorder (fileTree node), n.isEmptyAssign = false) :
    (∃ m, findTestCases P node = some m) ∧
    (∀ fn, Decl.funcDecl fn ∈ node.Decls → stringsHasPrefix fn.Name.Name "Test" = true →
      ∃ r, findTestedFunctionName fn = some r) := by
  refine ⟨⟨_, findTestCases_eq P node (bodies_testDecls hbody)⟩, ?_⟩
  intro fn hfn hp
  cases hb : fn.Body with
  | none => exact absurd hb (hbody fn hfn hp)
  | some body =>
      obtain ⟨r, hr⟩ := visitGot_returns (blockTree body) ""
        (fun n hn => hrhs n (body_nodes_of_file hfn hb hn))
      exact ⟨r, by simp [findTestedFunctionName, inspectBody, hb, hr]⟩

theorem subAddFile_bodies : ∀ fn, Decl.funcDecl fn ∈ subAddFile.Decls →
    stringsHasPrefix fn.Name.Name "Test" = true → fn.Body ≠ none := by
  intro fn hfn _
  simp only [subAddFile, testFile, List.map_cons, List.map_nil, List.mem_cons,
    Decl.funcDecl.injEq, List.not_mem_nil, or_false] at hfn
  rcases hfn with rfl | rfl <;> simp [subFunc, addFunc, testFunc]

/-- C20, witness: the file with `TestSub` and `TestAdd`. -/
theorem traversals_total_witness :
    (∃ m, findTestCases demoPrinter subAddFile = some m) ∧
    (∀ fn, Decl.funcDecl fn ∈ subAddFile.Decls → stringsHasPrefix fn.Name.Name "Test" = true →
      ∃ r, findTestedFunctionName fn = some r) :=
  traversals_total demoPrinter subAddFile subAddFile_bodies (by decide)

/-! ## The enrichment pass: soundness -/


theorem nameStep_tested (tc : TestCase) (e : Expr) :
    (nameStep tc e).TestedFunction = tc.TestedFunction := by
  unfold nameStep
  split
  · split
    · split
      · split
        · split <;> rfl
        · rfl
      · rfl
    · rfl
  · rfl

theorem nameStep_foldl_tested (es : List Expr) :
    ∀ tc : TestCase, (es.foldl nameStep tc).TestedFunction = tc.TestedFunction := by
  induction es with
  | nil => intro tc; rfl
  | cons e es ih =>
      intro tc
      simp only [List.foldl_cons]
      rw [ih, nameStep_tested]

theorem mkTestCase_tested (P : Printer) (kv : Expr) (elts : List Expr) :
    (mkTestCase P kv elts).TestedFunction = "" := by
  simp only [mkTestCase]
  exact nameStep_foldl_tested elts _

theorem bodyCases_tested (P : Printer) (body : BlockStmt) :
    ∀ tc ∈ bodyCases P body, tc.TestedFunction = "" := by
  intro tc htc
  simp only [bodyCases, List.mem_flatMap] at htc
  obtain ⟨n, _, hn⟩ := htc
  unfold nodeCases at hn
  split at hn
  · simp only [recordCases, List.mem_filterMap] at hn
    obtain ⟨e, _, he⟩ := hn
    split at he
    · simp only [Option.some.injEq] at he
      rw [← he]
      exact mkTestCase_tested P _ _
    · cases he
  · cases hn

theorem declCases_tested (P : Printer) (fn : FuncDecl) :
    ∀ tc ∈ declCases P fn, tc.TestedFunction = "" := by
  intro tc htc
  unfold declCases at htc
  split at htc
  · exact bodyCases_tested P _ tc htc
  · cases htc

/-- Right after `findTestCases` no test case has a tested-function text. -/
theorem collected_tested (P : Printer) (fns : List FuncDecl) (K : String)
    (cases : List TestCase) (h : collected P fns TestCases.empty K = some cases) :
    ∀ tc ∈ cases, tc.TestedFunction = "" := by
  simp only [collected] at h
  split at h
  · simp only [Option.some.injEq] at h
    rw [← h]
    exact declCases_tested P _
  · cases h

theorem foldOpt_inv {σ α : Type} (g : σ → α → Option σ) (I : σ → Prop) :
    ∀ (l : List α) (s s1 : σ), (∀ a ∈ l, ∀ t t1, I t → g t a = some t1 → I t1) → I s →
      foldOpt g s l = some s1 → I s1
  | [], s, s1, _, hs, h => by
      simp only [foldOpt, Option.some.injEq] at h
      exact h ▸ hs
  | a :: as, s, s1, hstep, hs, h => by
      simp only [foldOpt] at h
      cases hg : g s a with
      | none => simp [hg] at h
      | some s2 =>
          simp only [hg] at h
          exact foldOpt_inv g I as s2 s1
            (fun b hb => hstep b (List.mem_cons_of_mem _ hb))
            (hstep a (List.mem_cons_self _ _) s s2 hs hg) h

/-- A successful lookup names a function declared in the implementation
file. -/
theorem findFunctionImplementation_ok (P : Printer) (impl : Option File) (N code : String)
    (h : findFunctionImplementation P impl N = .ok code) :
    ∃ implNode g, impl = some implNode ∧ Decl.funcDecl g ∈ implNode.Decls ∧
      g.Name.Name = N ∧ code = P (.decl (.funcDecl g)) := by
  cases impl with
  | none => simp [findFunctionImplementation] at h
  | some implNode =>
      rcases findFunctionImplementation_cases P implNode N with ⟨g, hl, _, hok⟩ | ⟨herr, _⟩
      · rw [hok] at h
        have hg := lastNamed_some hl
        exact ⟨implNode, g, rfl, mem_funcDecls.mp hg.1, hg.2, by cases h; rfl⟩
      · rw [herr] at h
        cases h

theorem setTestedFunction_at (m : TestCases) (name code K : String) :
    setTestedFunction m name code K =
      if K = name then
        (m K).map (fun cases => cases.map (fun tc => { tc with TestedFunction := code }))
      else m K := by
  unfold setTestedFunction
  cases hm : m name with
  | none =>
      by_cases hK : K = name
      · subst hK
        simp [hm]
      · simp [hK]
  | some cases =>
      by_cases hK : K = name
      · subst hK
        simp [hm, TestCases.set]
      · simp [hK, TestCases.set]

/-- One step of the enrichment pass keeps every text justified. -/
theorem enrichStep_justified (P : Printer) (impl : Option File) (node : File) (fn : FuncDecl)
    (hfn : Decl.funcDecl fn ∈ node.Decls) (m m1 : TestCases)
    (hm : Justified P impl node m) (h : enrichStep P impl m fn = some m1) :
    Justified P impl node m1 := by
  unfold enrichStep at h
  split at h
  · next hp =>
      split at h
      · cases h
      · next N hN =>
          split at h
          · next hne =>
              split at h
              · simp only [Option.some.injEq] at h
                exact h ▸ hm
              · next code hcode =>
                  simp only [Option.some.injEq] at h
                  subst h
                  intro K cases tc hK htc htext
                  rw [setTestedFunction_at] at hK
                  by_cases hKn : K = fn.Name.Name
                  · simp only [hKn, if_true] at hK
                    cases hmK : m fn.Name.Name with
                    | none => simp [hmK] at hK
                    | some old =>
                        simp only [hmK, Option.map_some', Option.some.injEq] at hK
                        subst hK
                        obtain ⟨tc0, _, rfl⟩ := List.mem_map.mp htc
                        exact ⟨fn, N, hfn, hKn.symm, hKn ▸ hp, hN, hne, hcode⟩
                  · simp only [hKn, if_false] at hK
                    exact hm K cases tc hK htc htext
          · simp only [Option.some.injEq] at h
            exact h ▸ hm
  · simp only [Option.some.injEq] at h
    exact h ▸ hm

/-- After the enrichment pass every text is justified. -/
theorem mainEnrich_justified (P : Printer) (node : File) (impl : Option File) (m : TestCases)
    (h : mainEnrich P node impl = some m) : Justified P impl node m := by
  rw [mainEnrich_fold] at h
  cases h0 : findTestCases P node with
  | none => simp [h0] at h
  | some m0 =>
      simp only [h0] at h
      refine foldOpt_inv (enrichStep P impl) (Justified P impl node) (funcDecls node) m0 m
        (fun fn hfn t t1 ht hstep =>
          enrichStep_justified P impl node fn (mem_funcDecls.mp hfn) t t1 ht hstep) ?_ h
      intro K cases tc hK htc htext
      rw [findTestCases_some P node m0 h0] at hK
      exact absurd (collected_tested P _ K cases hK tc htc) htext

/-- C13: after the enrichment pass of `main`, every test case stored under a
key `K` with a non-empty tested-function text comes from a `Test` declaration
named `K` of the test file whose resolver result is a non-empty name `N`; the
implementation file derived from the test path declares a function named `N`,
and the text is the one `findFunctionImplementation` returns for `N`. -/
theorem enriched_text_sound (P : Printer) (fs : FileSystem) (filePath : String)
    (m : TestCases) (h : mainCollection P fs filePath = some m)
    (K : String) (cases : List TestCase) (tc : TestCase)
    (hK : m K = some cases) (htc : tc ∈ cases) (htext : tc.TestedFunction ≠ "") :
    ∃ node implNode fn N g,
      fs filePath = some node ∧ fs (implFilePath filePath) = some implNode ∧
      Decl.funcDecl fn ∈ node.Decls ∧ fn.Name.Name = K ∧
      stringsHasPrefix K "Test" = true ∧
      findTestedFunctionName fn = some N ∧ N ≠ "" ∧
      Decl.funcDecl g ∈ implNode.Decls ∧ g.Name.Name = N ∧
      findFunctionImplementation P (some implNode) N = .ok tc.TestedFunction := by
  unfold mainCollection at h
  split at h
  · cases h
  · cases hfile : fs filePath with
    | none => simp [hfile] at h
    | some node =>
        simp only [hfile] at h
        obtain ⟨fn, N, hfn, hname, hp, hN, hne, hcode⟩ :=
          mainEnrich_justified P node _ m h K cases tc hK htc htext
        obtain ⟨implNode, g, himpl, hg, hgN, _⟩ :=
          findFunctionImplementation_ok P _ N _ hcode
        rw [himpl] at hcode
        exact ⟨node, implNode, fn, N, g, rfl, himpl, hfn, hname, hp, hN, hne, hg, hgN, hcode⟩

/-- C13, witness: `calc_test.go` with `TestSub` and `TestAdd`, next to
`calc.go` with `Add`; the test case of `TestAdd` has the text `func Add`. -/
theorem enriched_text_sound_witness :
    ∃ node implNode fn N g,
      calcFiles "calc_test.go" = some node ∧
      calcFiles (implFilePath "calc_test.go") = some implNode ∧
      Decl.funcDecl fn ∈ node.Decls ∧ fn.Name.Name = "TestAdd" ∧
      stringsHasPrefix "TestAdd" "Test" = true ∧
      findTestedFunctionName fn = some N ∧ N ≠ "" ∧
      Decl.funcDecl g ∈ implNode.Decls ∧ g.Name.Name = N ∧
      findFunctionImplementation demoPrinter (some implNode) N = .ok "func Add" := by
  have hsome : (mainCollection demoPrinter calcFiles "calc_test.go").map
      (fun m => m "TestAdd") = some (some [⟨"plus", "lit/1", "func Add"⟩]) := by decide
  cases h : mainCollection demoPrinter calcFiles "calc_test.go" with
  | none => simp [h] at hsome
  | some m =>
      simp only [h, Option.map_some', Option.some.injEq] at hsome
      exact enriched_text_sound demoPrinter calcFiles "calc_test.go" m h "TestAdd"
        [⟨"plus", "lit/1", "func Add"⟩] ⟨"plus", "lit/1", "func Add"⟩ hsome
        (List.mem_singleton.mpr rfl) (by decide)

/-! ## The enrichment pass: missing functions -/


theorem enrichCases_none (P : Printer) (impl : Option File) (fn : FuncDecl)
    (h : resolvedCode P impl fn = none) : enrichCases P impl fn = id := by
  funext cases
  simp [enrichCases, h]

theorem enrichCases_some (P : Printer) (impl : Option File) (fn : FuncDecl) (code : String)
    (h : resolvedCode P impl fn = some code) :
    enrichCases P impl fn = List.map (fun tc => { tc with TestedFunction := code }) := by
  funext cases
  simp [enrichCases, h]

theorem enrichStep_eq (P : Printer) (impl : Option File) (m : TestCases) (fn : FuncDecl)
    (hp : stringsHasPrefix fn.Name.Name "Test" = true) (r : String)
    (hr : findTestedFunctionName fn = some r) :
    enrichStep P impl m fn =
      some (fun k => if k = fn.Name.Name then (m k).map (enrichCases P impl fn) else m k) := by
  have hid : (fun k => if k = fn.Name.Name then (m k).map id else m k) = m := by
    funext k
    split <;> simp
  by_cases hne : r = ""
  · have hc : resolvedCode P impl fn = none := by simp [resolvedCode, hr, hne]
    rw [enrichCases_none P impl fn hc, hid]
    simp [enrichStep, hp, hr, hne]
  · cases hf : findFunctionImplementation P impl r with
    | error e =>
        have hc : resolvedCode P impl fn = none := by simp [resolvedCode, hr, hne, hf]
        rw [enrichCases_none P impl fn hc, hid]
        simp [enrichStep, hp, hr, hne, hf]
    | ok code =>
        have hc : resolvedCode P impl fn = some code := by simp [resolvedCode, hr, hne, hf]
        rw [enrichCases_some P impl fn code hc]
        simp only [enrichStep, hp, if_true, hr, ne_eq, hne, not_false_eq_true, hf]
        congr 1
        funext k
        rw [setTestedFunction_at]

theorem enriched_cons (P : Printer) (impl : Option File) (fn : FuncDecl)
    (rest : List FuncDecl) (m : TestCases)
    (hd : ∀ g ∈ rest, g.Name.Name ≠ fn.Name.Name) :
    enriched P impl rest
        (fun k => if k = fn.Name.Name then (m k).map (enrichCases P impl fn) else m k) =
      enriched P impl (fn :: rest) m := by
  funext k
  simp only [enriched, lastNamed_cons]
  cases h : lastNamed k rest with
  | some g =>
      have hg := lastNamed_some h
      have hk : ¬ k = fn.Name.Name := fun e => hd g hg.1 (hg.2.trans e)
      simp [hk]
  | none =>
      by_cases hk : fn.Name.Name = k
      · simp [hk]
      · have hk1 : ¬ k = fn.Name.Name := fun e => hk e.symm
        simp [hk, hk1]

/-- With pairwise distinct `Test` names and a resolver that returns, the
enrichment pass returns the collection `enriched`. -/
theorem enrich_fold (P : Printer) (impl : Option File) :
    ∀ (fns : List FuncDecl) (m : TestCases),
      (fns.filter (fun fn => stringsHasPrefix fn.Name.Name "Test")).Pairwise
        (fun a b => a.Name.Name ≠ b.Name.Name) →
      (∀ fn ∈ fns, stringsHasPrefix fn.Name.Name "Test" = true →
        ∃ r, findTestedFunctionName fn = some r) →
      foldOpt (enrichStep P impl) m fns =
        some (enriched P impl (fns.filter (fun fn => stringsHasPrefix fn.Name.Name "Test")) m)
  | [], m, _, _ => by
      simp only [foldOpt, List.filter_nil]
      congr 1
  | fn :: rest, m, hd, hr => by
      have hrest : ∀ g ∈ rest, stringsHasPrefix g.Name.Name "Test" = true →
          ∃ r, findTestedFunctionName g = some r :=
        fun g hg => hr g (List.mem_cons_of_mem _ hg)
      by_cases hp : stringsHasPrefix fn.Name.Name "Test" = true
      · obtain ⟨r, hfn⟩ := hr fn (List.mem_cons_self _ _) hp
        simp only [List.filter_cons, hp, if_true, List.pairwise_cons] at hd
        simp only [foldOpt, enrichStep_eq P impl m fn hp r hfn, List.filter_cons, hp, if_true]
        rw [enrich_fold P impl rest _ hd.2 hrest]
        rw [enriched_cons P impl fn _ m (fun g hg => fun e => hd.1 g hg e.symm)]
      · simp only [List.filter_cons, hp] at hd
        simp only [foldOpt, enrichStep, hp, List.filter_cons]
        exact enrich_fold P impl rest m hd hrest

theorem resolver_returns {node : File} (hwf : TestsWellFormed node) :
    ∀ fn ∈ funcDecls node, stringsHasPrefix fn.Name.Name "Test" = true →
      ∃ r, findTestedFunctionName fn = some r := by
  intro fn hfn hp
  obtain ⟨body, hb, hrhs⟩ := hwf fn (by simp [testDecls, List.mem_filter, hfn, hp])
  obtain ⟨r, hr⟩ := visitGot_returns (blockTree body) "" hrhs
  exact ⟨r, by simp [findTestedFunctionName, inspectBody, hb, hr]⟩

/-- The whole pass on a well-formed file with pairwise distinct `Test` names. -/
theorem mainEnrich_eq (P : Printer) (node : File) (impl : Option File)
    (hd : (testDecls node).Pairwise (fun a b => a.Name.Name ≠ b.Name.Name))
    (hwf : TestsWellFormed node) :
    mainEnrich P node impl =
      some (enriched P impl (testDecls node) (collected P (testDecls node) TestCases.empty)) := by
  have hb : ∀ fn ∈ testDecls node, fn.Body ≠ none := by
    intro fn hfn
    obtain ⟨body, hbody, _⟩ := hwf fn hfn
    simp [hbody]
  rw [mainEnrich_fold, findTestCases_eq P node hb]
  exact enrich_fold P impl (funcDecls node) _ hd (resolver_returns hwf)

theorem enriched_at (P : Printer) (impl : Option File) (node : File)
    (hd : (testDecls node).Pairwise (fun a b => a.Name.Name ≠ b.Name.Name))
    (fn : FuncDecl) (hfn : fn ∈ testDecls node) :
    enriched P impl (testDecls node) (collected P (testDecls node) TestCases.empty)
        fn.Name.Name =
      some (enrichCases P impl fn (declCases P fn)) := by
  simp only [enriched, collected, lastNamed_pairwise hd hfn, Option.map_some']

theorem resolvedCode_missing (P : Printer) (impl : Option File) (fn : FuncDecl) (N : String)
    (hN : findTestedFunctionName fn = some N)
    (hmiss : ∀ implNode, impl = some implNode →
      ∀ g, Decl.funcDecl g ∈ implNode.Decls → g.Name.Name ≠ N) :
    resolvedCode P impl fn = none := by
  simp only [resolvedCode, hN]
  split
  · cases hf : findFunctionImplementation P impl N with
    | error e => rfl
    | ok code =>
        obtain ⟨implNode, g, himpl, hg, hgN, _⟩ := findFunctionImplementation_ok P impl N code hf
        exact absurd hgN (hmiss implNode himpl g hg)
  · rfl

theorem resolvedCode_found (P : Printer) (implNode : File) (fn : FuncDecl) (N : String)
    (g : FuncDecl) (pre post : List Decl)
    (hN : findTestedFunctionName fn = some N) (hne : N ≠ "")
    (hs : implNode.Decls = pre ++ Decl.funcDecl g :: post) (hname : g.Name.Name = N)
    (hlast : ∀ g1, Decl.funcDecl g1 ∈ post → g1.Name.Name ≠ N)
    (htext : P (.decl (.funcDecl g)) ≠ "") :
    resolvedCode P (some implNode) fn = some (P (.decl (.funcDecl g))) := by
  simp only [resolvedCode, hN, ne_eq, hne, not_false_eq_true, if_true,
    findFunctionImplementation_last P implNode N g (lastNamed_funcDecls hs hname hlast) htext]

/-- C14, graceful missing-function handling: in a test file whose `Test`
declarations have pairwise distinct names (and bodies, with a right-hand
expression in every assignment, so that nothing panics), the enrichment pass
of `main` returns a collection in which
* every test case of a test function `F` whose resolver result `N` is not the
  name of any declaration of the implementation file still has the empty
  tested-function text, and
* every test function `G` whose non-empty resolver result names a declaration
  of the implementation file (the last of that name, rendered to a non-empty
  text) has all its test cases populated with that text,
whatever the order of `F` and `G` in the file. -/
theorem missing_function_graceful (P : Printer) (fs : FileSystem) (filePath : String)
    (node : File) (hpath : filePath ≠ "") (hfile : fs filePath = some node)
    (hd : (testDecls node).Pairwise (fun a b => a.Name.Name ≠ b.Name.Name))
    (hwf : TestsWellFormed node) :
    ∃ m, mainCollection P fs filePath = some m ∧
      (∀ F N, Decl.funcDecl F ∈ node.Decls → stringsHasPrefix F.Name.Name "Test" = true →
        findTestedFunctionName F = some N →
        (∀ implNode, fs (implFilePath filePath) = some implNode →
          ∀ g, Decl.funcDecl g ∈ implNode.Decls → g.Name.Name ≠ N) →
        m F.Name.Name = some (declCases P F) ∧
          ∀ tc ∈ declCases P F, tc.TestedFunction = "") ∧
      (∀ G N implNode g pre post,
        Decl.funcDecl G ∈ node.Decls → stringsHasPrefix G.Name.Name "Test" = true →
        findTestedFunctionName G = some N → N ≠ "" →
        fs (implFilePath filePath) = some implNode →
        implNode.Decls = pre ++ Decl.funcDecl g :: post → g.Name.Name = N →
        (∀ g1, Decl.funcDecl g1 ∈ post → g1.Name.Name ≠ N) →
        P (.decl (.funcDecl g)) ≠ "" →
        m G.Name.Name =
          some ((declCases P G).map
            (fun tc => { tc with TestedFunction := P (.decl (.funcDecl g)) }))) := by
  refine ⟨enriched P (fs (implFilePath filePath)) (testDecls node)
    (collected P (testDecls node) TestCases.empty), ?_, ?_, ?_⟩
  · simp only [mainCollection, hpath, if_false, hfile]
    exact mainEnrich_eq P node _ hd hwf
  · intro F N hF hp hN hmiss
    refine ⟨?_, declCases_tested P F⟩
    rw [enriched_at P _ node hd F (mem_testDecls.mpr ⟨hF, hp⟩)]
    simp only [enrichCases, resolvedCode_missing P _ F N hN hmiss]
  · intro G N implNode g pre post hG hp hN hne himpl hs hname hlast htext
    rw [enriched_at P _ node hd G (mem_testDecls.mpr ⟨hG, hp⟩), himpl]
    simp only [enrichCases, resolvedCode_found P implNode G N g pre post hN hne hs hname hlast
      htext]

theorem subAddFile_distinct :
    (testDecls subAddFile).Pairwise (fun a b => a.Name.Name ≠ b.Name.Name) := by
  have h : testDecls subAddFile = [subFunc, addFunc] := rfl
  rw [h]
  simp only [List.pairwise_cons, List.mem_singleton, forall_eq, List.not_mem_nil,
    IsEmpty.forall_iff, implies_true, List.Pairwise.nil, and_true]
  decide

theorem subAddFile_wellFormed : TestsWellFormed subAddFile := by
  intro fn hfn
  have h : testDecls subAddFile = [subFunc, addFunc] := rfl
  rw [h] at hfn
  simp only [List.mem_cons, List.mem_singleton, List.not_mem_nil, or_false] at hfn
  rcases hfn with rfl | rfl
  · exact ⟨_, rfl, by decide⟩
  · exact ⟨_, rfl, by decide⟩

/-- C14, witness: `TestSub` (tested function `Sub`, missing from `calc.go`)
comes before `TestAdd` (tested function `Add`, declared in `calc.go`). -/
theorem missing_function_graceful_witness :
    (∃ m, mainCollection demoPrinter calcFiles "calc_test.go" = some m ∧
      (∀ F N, Decl.funcDecl F ∈ subAddFile.Decls →
        stringsHasPrefix F.Name.Name "Test" = true →
        findTestedFunctionName F = some N →
        (∀ implNode, calcFiles (implFilePath "calc_test.go") = some implNode →
          ∀ g, Decl.funcDecl g ∈ implNode.Decls → g.Name.Name ≠ N) →
        m F.Name.Name = some (declCases demoPrinter F) ∧
          ∀ tc ∈ declCases demoPrinter F, tc.TestedFunction = "") ∧
      (∀ G N implNode g pre post,
        Decl.funcDecl G ∈ subAddFile.Decls → stringsHasPrefix G.Name.Name "Test" = true →
        findTestedFunctionName G = some N → N ≠ "" →
        calcFiles (implFilePath "calc_test.go") = some implNode →
        implNode.Decls = pre ++ Decl.funcDecl g :: post → g.Name.Name = N →
        (∀ g1, Decl.funcDecl g1 ∈ post → g1.Name.Name ≠ N) →
        demoPrinter (.decl (.funcDecl g)) ≠ "" →
        m G.Name.Name =
          some ((declCases demoPrinter G).map
            (fun tc => { tc with TestedFunction := demoPrinter (.decl (.funcDecl g)) })))) ∧
    (mainCollection demoPrinter calcFiles "calc_test.go").map
        (fun m => (m "TestSub", m "TestAdd")) =
      some (some [⟨"minus", "lit/1", ""⟩], some [⟨"plus", "lit/1", "func Add"⟩]) :=
  ⟨missing_function_graceful demoPrinter calcFiles "calc_test.go" subAddFile (by decide) rfl
      subAddFile_distinct subAddFile_wellFormed,
    by decide⟩

end Lmlinter
